import Mathlib

/-!
Verification development for the ExamBoard scheduling core.

Shallow embedding conventions:
* A timestamp is a `Nat`: microseconds since a fixed local-time epoch.  The
  project runs in a fixed-offset local time zone, so the conversion between
  stored instants and local wall-clock time is an order- and
  day-structure-preserving bijection; we work directly in local microseconds.
* A calendar date is a `Nat`: the day number `t / usPerDay` of a timestamp.
* Seat counts and capacities are `Nat`; the running load of the sweep is an
  `Int` because departure events carry negative deltas.
* Fallible validation steps return `Except` values; the collected error list
  of the framework-level full validation is a `List CleanError`.

The definitions mirror `apps/exams/models.py` (ExamAllocation.clean,
ExamAllocation.save, the four validators) and `apps/exams/views.py`
(RoomViewSet.capacity_heatmap).
-/

/-- Number of microseconds in one calendar day. -/
def usPerDay : Nat := 86400000000

/-- Local calendar date (day number) of a timestamp, as in
`timezone.localtime(..).date()`. -/
def dateOf (t : Nat) : Nat := t / usPerDay

/-- An exam allocation row: room id, half-open interval of local-time
microsecond instants, and allocated seat count
(`ExamAllocation` in models.py). -/
structure Alloc where
  room : Nat
  start_at : Nat
  end_at : Nat
  allocated_seats : Nat
deriving DecidableEq

/-- Academic term date window (`Term.start_date`, `Term.end_date`). -/
structure TermRec where
  start_date : Nat
  end_date : Nat
deriving DecidableEq

/-- A blackout window; `room = none` means the blackout is global
(`BlackoutWindow` in models.py). -/
structure BlackoutRec where
  room : Option Nat
  start_at : Nat
  end_at : Nat
deriving DecidableEq

/-- An all-day holiday range, inclusive on both ends (`Holiday`). -/
structure HolidayRec where
  start_date : Nat
  end_date : Nat
deriving DecidableEq

/-- The read-only collaborators consulted by validation: the term of the
candidate exam, the blackout and holiday tables, and the capacity of each
room. -/
structure Env where
  term : TermRec
  blackouts : List BlackoutRec
  holidays : List HolidayRec
  capacity : Nat → Nat

/-- The field a validation error is keyed to in the raised error dict. -/
inductive FieldKey where
  | start_at
  | allocated_seats
  | nonFieldErrors
deriving DecidableEq

/-- The four constraint violations raised by `ExamAllocation.clean`. -/
inductive PipelineViolation where
  | termWindow
  | blackout
  | holiday
  | capacity
deriving DecidableEq

/-- Which error-dict field each pipeline violation is keyed to in models.py
(term window, blackout and holiday errors name `start_at`; the capacity
error names `allocated_seats`). -/
def violationField : PipelineViolation → FieldKey
  | .termWindow => .start_at
  | .blackout => .start_at
  | .holiday => .start_at
  | .capacity => .allocated_seats

/-- Errors that can appear in the dict raised by Django `full_clean`:
the `MinValueValidator(1)` field error on `allocated_seats` from
`clean_fields`, a pipeline violation from `clean`, and the
`exam_allocation_start_before_end` check-constraint error from
`validate_constraints`. -/
inductive CleanError where
  | seatsMinValue
  | pipeline (v : PipelineViolation)
  | intervalConstraint
deriving DecidableEq

/-- The two directed events of one allocation: arrival `(start, +seats)`
and departure `(end, -seats)` (models.py lines 224-229). -/
def allocEvents (a : Alloc) : List (Nat × Int) :=
  [(a.start_at, (a.allocated_seats : Int)), (a.end_at, -(a.allocated_seats : Int))]

/-- Events of a list of allocations, in list order. -/
def eventsOf (l : List Alloc) : List (Nat × Int) :=
  l.flatMap allocEvents

/-- The sort key of models.py line 231-234, `(timestamp, 0 if delta < 0 else 1)`,
encoded injectively and monotonically into a single `Nat`. -/
def eventKey (e : Nat × Int) : Nat :=
  2 * e.1 + (if e.2 < 0 then 0 else 1)

/-- The ordering used to sort events: by timestamp, departures strictly
before arrivals at equal timestamps. -/
def eventLE (x y : Nat × Int) : Prop := eventKey x ≤ eventKey y

instance : DecidableRel eventLE :=
  fun x y => inferInstanceAs (Decidable (eventKey x ≤ eventKey y))

instance : IsTotal (Nat × Int) eventLE :=
  ⟨fun x y => Nat.le_total (eventKey x) (eventKey y)⟩

instance : IsTrans (Nat × Int) eventLE :=
  ⟨fun _ _ _ h1 h2 => Nat.le_trans h1 h2⟩

instance : IsRefl (Nat × Int) eventLE :=
  ⟨fun x => Nat.le_refl (eventKey x)⟩

/-- Stable sort of the event list by `(timestamp, departure-before-arrival)`,
as Python `sorted(events, key=sort_key)`. -/
def sortEvents (E : List (Nat × Int)) : List (Nat × Int) :=
  List.insertionSort eventLE E

/-- The sweep loop of `_validate_capacity` (models.py lines 236-244):
accumulate `current_load` over the sorted events and report whether the
load ever exceeds the capacity. -/
def capacitySweepFails (capacity : Nat) : Int → List (Nat × Int) → Bool
  | _, [] => false
  | load, e :: rest =>
    if (capacity : Int) < load + e.2 then true
    else capacitySweepFails capacity (load + e.2) rest

/-- Event list built by `_validate_capacity`: events of the overlapping
allocations followed by the candidate events. -/
def capacityEvents (overlaps : List Alloc) (cand : Alloc) : List (Nat × Int) :=
  eventsOf overlaps ++ allocEvents cand

/-- `ExamAllocation._validate_capacity`: sweep the sorted events of the
overlap set plus the candidate and fail with a capacity violation if the
running load exceeds the room capacity at any point. -/
def validateCapacity (capacity : Nat) (overlaps : List Alloc) (cand : Alloc) :
    Except PipelineViolation Unit :=
  if capacitySweepFails capacity 0 (sortEvents (capacityEvents overlaps cand)) then
    .error .capacity
  else .ok ()

/-- `ExamAllocation._validate_term_window`: the local start date must not
precede the term start date and the local date of the inclusive end
(end minus one microsecond) must not exceed the term end date. -/
def validateTermWindow (term : TermRec) (cand : Alloc) : Except PipelineViolation Unit :=
  if dateOf cand.start_at < term.start_date ∨ term.end_date < dateOf (cand.end_at - 1) then
    .error .termWindow
  else .ok ()

/-- Whether one blackout window blocks the candidate: room match or global,
and strict half-open interval overlap (models.py lines 197-200). -/
def blackoutHits (cand : Alloc) (b : BlackoutRec) : Bool :=
  (b.room == some cand.room || b.room == none)
    && decide (b.start_at < cand.end_at) && decide (cand.start_at < b.end_at)

/-- `ExamAllocation._validate_blackouts`. -/
def validateBlackouts (bs : List BlackoutRec) (cand : Alloc) : Except PipelineViolation Unit :=
  if bs.any (blackoutHits cand) then .error .blackout else .ok ()

/-- Whether a holiday intersects the inclusive local date span of the
candidate (models.py lines 206-215). -/
def holidayHits (cand : Alloc) (h : HolidayRec) : Bool :=
  decide (h.start_date ≤ dateOf (cand.end_at - 1)) && decide (dateOf cand.start_at ≤ h.end_date)

/-- `ExamAllocation._validate_holidays`. -/
def validateHolidays (hs : List HolidayRec) (cand : Alloc) : Except PipelineViolation Unit :=
  if hs.any (holidayHits cand) then .error .holiday else .ok ()

/-- `ExamAllocation._get_overlapping_allocations` and the
`select_for_update` query in `save`: allocations of the same room whose
interval strictly overlaps the candidate interval.  We model creation of a
new row, so there is no primary-key self-exclusion. -/
def overlapFilter (db : List Alloc) (cand : Alloc) : List Alloc :=
  db.filter fun a =>
    a.room == cand.room && decide (a.start_at < cand.end_at) && decide (cand.start_at < a.end_at)

/-- `ExamAllocation.clean` with the overlap set already materialised
(the `_locked_overlaps` path): run the four checks in order and stop at
the first violation. -/
def cleanPipelineWith (env : Env) (overlaps : List Alloc) (cand : Alloc) :
    Except PipelineViolation Unit := do
  validateTermWindow env.term cand
  validateBlackouts env.blackouts cand
  validateHolidays env.holidays cand
  validateCapacity (env.capacity cand.room) overlaps cand

/-- `ExamAllocation.clean` against a database of persisted allocations. -/
def cleanPipeline (env : Env) (db : List Alloc) (cand : Alloc) :
    Except PipelineViolation Unit :=
  cleanPipelineWith env (overlapFilter db cand) cand

/-- Django `full_clean` excludes every field that already carries an error
from constraint validation, and `CheckConstraint.validate` silently skips
a check that references an excluded field.  The
`exam_allocation_start_before_end` constraint references `start_at` (and
`end_at`, which never collects an error here), so the constraint check is
skipped exactly when the pipeline raised a violation keyed to `start_at`
(term window, blackout or holiday; the capacity violation is keyed to
`allocated_seats` and does not suppress it). -/
def startAtExcluded : Except PipelineViolation Unit → Bool
  | .ok _ => false
  | .error v => violationField v == FieldKey.start_at

/-- Django `Model.full_clean` semantics for an allocation: `clean_fields`
(the seats minimum-value validator), then `clean` (the pipeline), then
`validate_constraints` (the `start_at < end_at` check constraint) are all
run and their errors collected; validation succeeds iff the collected list
is empty.  `clean` runs even when another stage fails, and the constraint
check is skipped when `start_at` was excluded by a prior error. -/
def fullCleanWith (env : Env) (overlaps : List Alloc) (cand : Alloc) : List CleanError :=
  (if cand.allocated_seats < 1 then [CleanError.seatsMinValue] else [])
    ++ (match cleanPipelineWith env overlaps cand with
        | .ok _ => []
        | .error v => [CleanError.pipeline v])
    ++ (if startAtExcluded (cleanPipelineWith env overlaps cand) = true then []
        else if cand.start_at < cand.end_at then [] else [CleanError.intervalConstraint])

/-- Full validation of a candidate against the persisted database. -/
def fullCleanErrors (env : Env) (db : List Alloc) (cand : Alloc) : List CleanError :=
  fullCleanWith env (overlapFilter db cand) cand

/-- The validate-and-persist operation: on success the candidate row is
appended to the table, on failure the table is unchanged. -/
def persist (env : Env) (db : List Alloc) (cand : Alloc) : Option (List Alloc) :=
  if fullCleanErrors env db cand = [] then some (db ++ [cand]) else none

/-- Transaction state for `ExamAllocation.save`: the durable table, the
pending view inside the open transaction, the set of row locks held, and
the failure raised so far (if any). -/
structure TxState where
  committed : List Alloc
  pending : List Alloc
  locks : List Alloc
  failure : Option (List CleanError)

/-- Open the transaction (`transaction.atomic()` entry). -/
def txBegin (db : List Alloc) : TxState := ⟨db, db, [], none⟩

/-- Acquire exclusive row locks on every allocation overlapping the
candidate (`select_for_update` materialised into `_locked_overlaps`). -/
def txLockOverlaps (cand : Alloc) (st : TxState) : TxState :=
  match st.failure with
  | some _ => st
  | none => { st with locks := overlapFilter st.pending cand }

/-- Run `full_clean` against the locked overlap set; a nonempty error list
marks the transaction as failed. -/
def txFullClean (env : Env) (cand : Alloc) (st : TxState) : TxState :=
  match st.failure with
  | some _ => st
  | none =>
    match fullCleanWith env st.locks cand with
    | [] => st
    | es => { st with failure := some es }

/-- The single write of `save`: append the candidate row to the pending
view.  It only happens when validation has not failed. -/
def txWrite (cand : Alloc) (st : TxState) : TxState :=
  match st.failure with
  | some _ => st
  | none => { st with pending := st.pending ++ [cand] }

/-- Result of the save call: the outcome, the durable table after the
transaction closes, and the row locks still held afterwards. -/
structure TxOutcome where
  result : Except (List CleanError) Unit
  db : List Alloc
  locksHeld : List Alloc

/-- Close the transaction: commit publishes the pending view and releases
the locks; a failure rolls back to the durable table and also releases the
locks. -/
def txFinish (st : TxState) : TxOutcome :=
  match st.failure with
  | none => ⟨.ok (), st.pending, []⟩
  | some es => ⟨.error es, st.committed, []⟩

/-- `ExamAllocation.save` (models.py lines 165-183): lock the overlap set,
fully validate, write, and commit or roll back. -/
def saveAllocation (env : Env) (db : List Alloc) (cand : Alloc) : TxOutcome :=
  txFinish (txWrite cand (txFullClean env cand (txLockOverlaps cand (txBegin db))))

/-- States of the allocation table reachable from the empty table by
successful validate-and-persist operations. -/
inductive Reachable (env : Env) : List Alloc → Prop where
  | empty : Reachable env []
  | step {db db' : List Alloc} {cand : Alloc} :
      Reachable env db → persist env db cand = some db' → Reachable env db'

/-- Seats an allocation occupies at instant `t` (its interval is half-open). -/
def seatsAt (a : Alloc) (t : Nat) : Int :=
  if a.start_at ≤ t ∧ t < a.end_at then (a.allocated_seats : Int) else 0

/-- Total seat load of a list of allocations at instant `t`. -/
def loadAt (l : List Alloc) (t : Nat) : Int :=
  (l.map (fun a => seatsAt a t)).sum

/-- Allocations of one room. -/
def roomAllocs (db : List Alloc) (r : Nat) : List Alloc :=
  db.filter fun a => a.room == r

/-- Data-model invariant of an allocation row: a proper half-open interval
and at least one seat. -/
def Proper (a : Alloc) : Prop :=
  a.start_at < a.end_at ∧ 1 ≤ a.allocated_seats

/-- The peak-tracking sweep loop of the capacity heatmap
(views.py lines 235-240). -/
def sweepPeakLoop : Int → Int → List (Nat × Int) → Int
  | _, peak, [] => peak
  | load, peak, e :: rest =>
    sweepPeakLoop (load + e.2) (if peak < load + e.2 then load + e.2 else peak) rest

/-- Peak concurrent seat load reported by the sweep evaluator for a list of
allocations. -/
def sweepPeak (l : List Alloc) : Int :=
  sweepPeakLoop 0 0 (sortEvents (eventsOf l))

/-- Specification-side view of the sweep: the maximum over all prefixes
(including the empty one) of the running sums of the event deltas, started
from `load`. -/
def prefMax : Int → List (Nat × Int) → Int
  | load, [] => load
  | load, e :: rest => max load (prefMax (load + e.2) rest)

/-- Sum of the deltas of the first `n` events. -/
def prefSum (L : List (Nat × Int)) (n : Nat) : Int :=
  ((L.take n).map (fun e => e.2)).sum

/-- Sum of the deltas of all events whose sort key is at most `k`. -/
def cutSum (E : List (Nat × Int)) (k : Nat) : Int :=
  ((E.filter fun e => decide (eventKey e ≤ k)).map (fun e => e.2)).sum

/-- Modelled from the spec: the naive brute-force reference evaluator,
which simulates the load at every microsecond of the window `[w0, w1]` and
takes the maximum (section 8 of the spec, property-based check). -/
def bruteForcePeak (l : List Alloc) (w0 w1 : Nat) : Int :=
  ((List.range' w0 (w1 + 1 - w0)).map (fun t => loadAt l t)).foldr max 0

/-- Per-day accumulators of the heatmap: the event bucket, the booked-seat
total and the allocation count of each day (`events_by_room`,
`totals_by_room`, `counts_by_room` in views.py). -/
structure DayBuckets where
  ev : Nat → List (Nat × Int)
  tot : Nat → Nat
  cnt : Nat → Nat

/-- Empty accumulators. -/
def emptyBuckets : DayBuckets := ⟨fun _ => [], fun _ => 0, fun _ => 0⟩

/-- The days iterated by the inner while loop of the heatmap for one
allocation: from the local date of its start to the local date of its
inclusive end (end minus one microsecond). -/
def daySpan (a : Alloc) : List Nat :=
  List.range' (dateOf a.start_at) (dateOf (a.end_at - 1) + 1 - dateOf a.start_at)

/-- Start of the sub-interval of an allocation clamped to day `d`. -/
def clipStart (a : Alloc) (d : Nat) : Nat := max a.start_at (d * usPerDay)

/-- End of the sub-interval of an allocation clamped to day `d`. -/
def clipEnd (a : Alloc) (d : Nat) : Nat := min a.end_at (d * usPerDay + usPerDay)

/-- One iteration of the inner while loop (views.py lines 204-227): skip
days outside the requested range, clamp the allocation to the day, and if
the clamped sub-interval is nonempty append its two events and update the
total and count of that day. -/
def processAllocDay (s e : Nat) (a : Alloc) (B : DayBuckets) (d : Nat) : DayBuckets :=
  if d < s ∨ e < d then B
  else if clipStart a d < clipEnd a d then
    { ev := fun x =>
        if x = d then
          B.ev d ++ [(clipStart a d, (a.allocated_seats : Int)),
                     (clipEnd a d, -(a.allocated_seats : Int))]
        else B.ev x
      tot := fun x => if x = d then B.tot d + a.allocated_seats else B.tot x
      cnt := fun x => if x = d then B.cnt d + 1 else B.cnt x }
  else B

/-- Process one allocation: loop over the days it spans. -/
def processAlloc (s e : Nat) (B : DayBuckets) (a : Alloc) : DayBuckets :=
  (daySpan a).foldl (processAllocDay s e a) B

/-- The database window filter of the heatmap query (views.py lines
168-174): allocations intersecting the aware range from the start of day
`s` to the start of the day after `e`. -/
def windowFilter (s e : Nat) (allocs : List Alloc) : List Alloc :=
  allocs.filter fun a =>
    decide (a.start_at < (e + 1) * usPerDay) && decide (s * usPerDay < a.end_at)

/-- Build the per-day accumulators for the whole allocation list. -/
def buildBuckets (s e : Nat) (allocs : List Alloc) : DayBuckets :=
  (windowFilter s e allocs).foldl (processAlloc s e) emptyBuckets

/-- Round a rational to the nearest integer, ties to even, as Python
`round` does on the idealised exact value. -/
def roundHalfEven (q : ℚ) : ℤ :=
  if q - ⌊q⌋ < 1/2 then ⌊q⌋
  else if 1/2 < q - ⌊q⌋ then ⌊q⌋ + 1
  else if ⌊q⌋ % 2 = 0 then ⌊q⌋ else ⌊q⌋ + 1

/-- Python `round(x, 4)` on the idealised exact rational value. -/
def round4 (q : ℚ) : ℚ := (roundHalfEven (q * 10000) : ℚ) / 10000

/-- One day entry of the heatmap payload. -/
structure DayRecord where
  date : Nat
  peak_allocated_seats : Int
  total_allocated_seats : Nat
  allocation_count : Nat
  utilisation : ℚ
deriving DecidableEq

/-- The per-room day loop of `RoomViewSet.capacity_heatmap` (views.py lines
231-253): for every day of the requested range, sort the event bucket of
the day, run the peak-tracking sweep, and emit the day record with
utilisation `peak / (capacity or 1)` rounded to four decimal places. -/
def heatmapRoom (capacity : Nat) (s e : Nat) (allocs : List Alloc) : List DayRecord :=
  let B := buildBuckets s e allocs
  (List.range' s (e + 1 - s)).map fun d =>
    let cap := if capacity = 0 then 1 else capacity
    let peak := sweepPeakLoop 0 0 (sortEvents (B.ev d))
    ⟨d, peak, B.tot d, B.cnt d, round4 ((peak : ℚ) / (cap : ℚ))⟩

/-- The sub-allocation of `a` clamped to day `d`. -/
def clipAlloc (a : Alloc) (d : Nat) : Alloc :=
  ⟨a.room, clipStart a d, clipEnd a d, a.allocated_seats⟩

/-- Whether an allocation contributes to day `d` of the heatmap range
`[s, e]`: the day lies in its local date span, inside the requested range,
and the clamped sub-interval is nonempty. -/
def touchesDay (s e d : Nat) (a : Alloc) : Bool :=
  decide (dateOf a.start_at ≤ d) && decide (d ≤ dateOf (a.end_at - 1))
    && decide (s ≤ d) && decide (d ≤ e) && decide (clipStart a d < clipEnd a d)

/-- Declarative view of one heatmap day: the allocations of the window that
touch day `d`, each clamped to that day. -/
def dayAllocs (s e d : Nat) (allocs : List Alloc) : List Alloc :=
  ((windowFilter s e allocs).filter (touchesDay s e d)).map fun a => clipAlloc a d

/-- Total seats of a list of allocations. -/
def sumSeats (l : List Alloc) : Nat :=
  (l.map fun a => a.allocated_seats).sum

/-- Clamped capacity used as the utilisation divisor. -/
def clampedCapacity (capacity : Nat) : Nat :=
  if capacity = 0 then 1 else capacity

/-- Microseconds of `h` whole hours, for concrete scenarios. -/
def hourUS (h : Nat) : Nat := h * 3600000000

/-- Scenario 1: allocation A, 50 seats on the local interval 08:00-10:00. -/
def allocScenA : Alloc := ⟨1, hourUS 8, hourUS 10, 50⟩

/-- Scenario 1: allocation B, 50 seats on 09:00-11:00. -/
def allocScenB : Alloc := ⟨1, hourUS 9, hourUS 11, 50⟩

/-- Scenario 1: allocation C, 1 seat on 09:30-10:30. -/
def allocScenC : Alloc := ⟨1, hourUS 9 + 1800000000, hourUS 10 + 1800000000, 1⟩

/-- A small environment: term days 0-10, no blackouts or holidays, every
room of capacity 100. -/
def envPlain : Env := ⟨⟨0, 10⟩, [], [], fun _ => 100⟩

/-- Back-to-back scenario: 60 seats on 08:00-10:00. -/
def allocBack1 : Alloc := ⟨1, hourUS 8, hourUS 10, 60⟩

/-- Back-to-back scenario: 40 seats starting exactly at 10:00. -/
def allocBack2 : Alloc := ⟨1, hourUS 10, hourUS 12, 40⟩

/-- Scenario 3 term: 2024-03-20 to 2024-06-20 as day numbers 79 to 171
counted from 2024-01-01. -/
def termSpring : TermRec := ⟨79, 171⟩

/-- Scenario 3 candidate: dated 2024-07-01 (day 182), 09:00-11:00. -/
def allocJuly : Alloc := ⟨1, 182 * usPerDay + hourUS 9, 182 * usPerDay + hourUS 11, 10⟩

/-- Scenario 2 blackout: global (no room), 08:00-12:00. -/
def blackoutGlobal : BlackoutRec := ⟨none, hourUS 8, hourUS 12⟩

/-- Environment with the global blackout installed. -/
def envBlackout : Env := ⟨⟨0, 10⟩, [blackoutGlobal], [], fun _ => 100⟩

/-- A degenerate candidate with an empty interval (start equals end) placed
inside the global blackout. -/
def allocEmptyInterval : Alloc := ⟨1, hourUS 9, hourUS 9, 5⟩

/-- Tiny allocation for witnesses: 1 seat on instants 0-2. -/
def allocTiny1 : Alloc := ⟨1, 0, 2, 1⟩

/-- Tiny allocation for witnesses: 2 seats on instants 1-3. -/
def allocTiny2 : Alloc := ⟨1, 1, 3, 2⟩

/-- A one-seat allocation covering exactly the first day. -/
def allocFullDay : Alloc := ⟨1, 0, usPerDay, 1⟩

/-- A candidate in a different room (2), inside the global blackout hours. -/
def allocOtherRoom : Alloc := ⟨2, hourUS 9, hourUS 10, 5⟩

instance (a : Alloc) : Decidable (Proper a) :=
  inferInstanceAs (Decidable (a.start_at < a.end_at ∧ 1 ≤ a.allocated_seats))

/-!
Relating the imperative sweep loops to the prefix-sum maximum, and the
prefix sums of the sorted event list to instantaneous loads.
-/

theorem prefMax_ge (L : List (Nat × Int)) (load : Int) : load ≤ prefMax load L := by
  cases L with
  | nil => simp [prefMax]
  | cons e rest => simp only [prefMax]; exact le_max_left _ _

theorem capacitySweepFails_iff (cap : Nat) :
    ∀ (L : List (Nat × Int)) (load : Int), load ≤ (cap : Int) →
      (capacitySweepFails cap load L = true ↔ (cap : Int) < prefMax load L) := by
  intro L
  induction L with
  | nil =>
    intro load h
    simp only [capacitySweepFails, prefMax]
    constructor
    · intro hc; cases hc
    · intro hc; omega
  | cons e rest ih =>
    intro load h
    by_cases hx : (cap : Int) < load + e.2
    · have h1 : prefMax (load + e.2) rest ≥ load + e.2 := prefMax_ge rest (load + e.2)
      simp only [capacitySweepFails, prefMax, if_pos hx]
      constructor
      · intro _
        exact lt_max_iff.mpr (Or.inr (lt_of_lt_of_le hx h1))
      · intro _; trivial
    · have h2 : load + e.2 ≤ (cap : Int) := by omega
      simp only [capacitySweepFails, prefMax, if_neg hx]
      rw [ih _ h2, lt_max_iff]
      constructor
      · intro hc; exact Or.inr hc
      · rintro (hc | hc)
        · omega
        · exact hc

theorem sweepPeakLoop_eq :
    ∀ (L : List (Nat × Int)) (load peak : Int), load ≤ peak →
      sweepPeakLoop load peak L = max peak (prefMax load L) := by
  intro L
  induction L with
  | nil =>
    intro load peak h
    simp only [sweepPeakLoop, prefMax]
    exact (max_eq_left h).symm
  | cons e rest ih =>
    intro load peak h
    have hg : load + e.2 ≤ prefMax (load + e.2) rest := prefMax_ge rest (load + e.2)
    simp only [sweepPeakLoop, prefMax]
    by_cases hx : peak < load + e.2
    · rw [if_pos hx, ih _ _ (le_refl _)]
      have h1 : load ≤ prefMax (load + e.2) rest := by omega
      rw [max_eq_right h1, max_eq_right hg, max_eq_right (by omega : peak ≤ prefMax (load + e.2) rest)]
    · rw [if_neg hx, ih _ _ (by omega), ← max_assoc, max_eq_left h]

theorem sweepPeak_eq_prefMax (l : List Alloc) :
    sweepPeak l = prefMax 0 (sortEvents (eventsOf l)) := by
  unfold sweepPeak
  rw [sweepPeakLoop_eq _ 0 0 (le_refl 0), max_eq_right (prefMax_ge _ 0)]

theorem prefMax_ge_prefSum (L : List (Nat × Int)) :
    ∀ (load : Int) (n : Nat), load + prefSum L n ≤ prefMax load L := by
  induction L with
  | nil =>
    intro load n
    simp [prefSum, prefMax]
  | cons e rest ih =>
    intro load n
    cases n with
    | zero =>
      simp only [prefSum, List.take_zero, List.map_nil, List.sum_nil, add_zero, prefMax]
      exact le_max_left _ _
    | succ m =>
      have hsplit : prefSum (e :: rest) (m + 1) = e.2 + prefSum rest m := by
        simp [prefSum, List.take_succ_cons]
      rw [hsplit]
      calc load + (e.2 + prefSum rest m) = (load + e.2) + prefSum rest m := by ring
        _ ≤ prefMax (load + e.2) rest := ih _ _
        _ ≤ max load (prefMax (load + e.2) rest) := le_max_right _ _
        _ = prefMax load (e :: rest) := rfl

theorem prefMax_eq_some_prefSum (L : List (Nat × Int)) :
    ∀ load : Int, ∃ n, prefMax load L = load + prefSum L n := by
  induction L with
  | nil =>
    intro load
    exact ⟨0, by simp [prefSum, prefMax]⟩
  | cons e rest ih =>
    intro load
    obtain ⟨m, hm⟩ := ih (load + e.2)
    by_cases hx : prefMax (load + e.2) rest ≤ load
    · refine ⟨0, ?_⟩
      simp only [prefMax, prefSum, List.take_zero, List.map_nil, List.sum_nil, add_zero]
      exact max_eq_left hx
    · refine ⟨m + 1, ?_⟩
      have hsplit : prefSum (e :: rest) (m + 1) = e.2 + prefSum rest m := by
        simp [prefSum, List.take_succ_cons]
      simp only [prefMax]
      rw [max_eq_right (le_of_not_le hx), hm, hsplit]
      ring

theorem eventKey_sign {x y : Nat × Int} (h : eventKey x = eventKey y) :
    x.2 < 0 ↔ y.2 < 0 := by
  unfold eventKey at h
  by_cases hx : x.2 < 0 <;> by_cases hy : y.2 < 0 <;>
    simp only [hx, hy, if_pos, if_neg, if_true, if_false] at h ⊢ <;> omega

theorem sorted_filter_le_eq_take :
    ∀ (S : List (Nat × Int)), List.Sorted eventLE S → ∀ k : Nat,
      ∃ n, S.filter (fun e => decide (eventKey e ≤ k)) = S.take n := by
  intro S
  induction S with
  | nil => intro _ k; exact ⟨0, rfl⟩
  | cons x rest ih =>
    intro hs k
    have hpc := List.pairwise_cons.mp hs
    by_cases hk : eventKey x ≤ k
    · obtain ⟨n, hn⟩ := ih hpc.2 k
      refine ⟨n + 1, ?_⟩
      rw [List.filter_cons, if_pos (by simpa using hk), hn, List.take_succ_cons]
    · refine ⟨0, ?_⟩
      rw [List.take_zero, List.filter_eq_nil_iff]
      intro a ha
      rcases List.mem_cons.mp ha with h1 | h2
      · subst h1; simpa using hk
      · have hle : eventLE x a := hpc.1 a h2
        unfold eventLE at hle
        simp only [decide_eq_true_eq]
        omega

theorem cutSum_perm {E F : List (Nat × Int)} (h : E.Perm F) (k : Nat) :
    cutSum E k = cutSum F k := by
  unfold cutSum
  exact ((h.filter _).map _).sum_eq

theorem cutSum_le_prefMax (S : List (Nat × Int)) (hs : List.Sorted eventLE S) (k : Nat) :
    cutSum S k ≤ prefMax 0 S := by
  obtain ⟨n, hn⟩ := sorted_filter_le_eq_take S hs k
  have h1 : cutSum S k = prefSum S n := by
    unfold cutSum prefSum
    rw [hn]
  have h2 := prefMax_ge_prefSum S 0 n
  omega

theorem sorted_take_le (S : List (Nat × Int)) (hs : List.Sorted eventLE S)
    (m : Nat) (hm : m < S.length) :
    ∀ y ∈ S.take (m + 1), eventKey y ≤ eventKey (S.get ⟨m, hm⟩) := by
  intro y hy
  obtain ⟨i, hi, hie⟩ := List.mem_take_iff_getElem.mp hy
  have him : i < S.length := lt_of_lt_of_le hi (min_le_right _ _)
  have hile : i ≤ m := by
    have := lt_of_lt_of_le hi (min_le_left _ _)
    omega
  have := hs.rel_get_of_le (a := ⟨i, him⟩) (b := ⟨m, hm⟩) hile
  unfold eventLE at this
  simpa [hie] using this

theorem sorted_drop_ge (S : List (Nat × Int)) (hs : List.Sorted eventLE S)
    (m : Nat) (hm : m < S.length) :
    ∀ y ∈ S.drop (m + 1), eventKey (S.get ⟨m, hm⟩) ≤ eventKey y := by
  intro y hy
  obtain ⟨j, hj, hje⟩ := List.mem_iff_getElem.mp hy
  have hjm : m + 1 + j < S.length := by
    have := List.length_drop (m + 1) S
    omega
  have hidx : (S.drop (m + 1))[j] = S[m + 1 + j] := List.getElem_drop S
  have hle : m ≤ m + 1 + j := by omega
  have := hs.rel_get_of_le (a := ⟨m, hm⟩) (b := ⟨m + 1 + j, hjm⟩) hle
  unfold eventLE at this
  rw [← hje, hidx]
  simpa using this

theorem prefSum_succ_of_lt (S : List (Nat × Int)) (m : Nat) (hm : m < S.length) :
    prefSum S (m + 1) = prefSum S m + (S.get ⟨m, hm⟩).2 := by
  unfold prefSum
  rw [List.take_succ, List.getElem?_eq_getElem hm, List.map_append, List.sum_append,
    List.get_eq_getElem]
  simp

theorem cutSum_split (S : List (Nat × Int)) (k : Nat) (n : Nat) :
    cutSum S k
      = ((List.filter (fun e => decide (eventKey e ≤ k)) (S.take n)).map (fun e => e.2)).sum
        + ((List.filter (fun e => decide (eventKey e ≤ k)) (S.drop n)).map (fun e => e.2)).sum := by
  unfold cutSum
  conv_lhs => rw [← List.take_append_drop n S]
  rw [List.filter_append, List.map_append, List.sum_append]

theorem prefSum_le_arrival_cut (S : List (Nat × Int)) (hs : List.Sorted eventLE S) :
    ∀ n, prefSum S n ≤ 0 ∨ ∃ e ∈ S, 0 ≤ e.2 ∧ prefSum S n ≤ cutSum S (eventKey e) := by
  intro n
  induction n with
  | zero => left; simp [prefSum]
  | succ m ih =>
    by_cases hm : m < S.length
    · have hsplit := prefSum_succ_of_lt S m hm
      by_cases hneg : (S.get ⟨m, hm⟩).2 < 0
      · rcases ih with h | ⟨e, he, hpos, hle⟩
        · left; omega
        · right; exact ⟨e, he, hpos, by omega⟩
      · right
        refine ⟨S.get ⟨m, hm⟩, List.get_mem S m hm, by omega, ?_⟩
        have hfilter_take :
            (S.take (m + 1)).filter (fun e => decide (eventKey e ≤ eventKey (S.get ⟨m, hm⟩)))
              = S.take (m + 1) := by
          rw [List.filter_eq_self]
          intro a ha
          simpa using sorted_take_le S hs m hm a ha
        have hdrop_nonneg : ∀ y ∈ (S.drop (m + 1)).filter
            (fun e => decide (eventKey e ≤ eventKey (S.get ⟨m, hm⟩))), (0 : Int) ≤ y.2 := by
          intro y hy
          have hy1 := List.of_mem_filter hy
          have hy2 := List.mem_of_mem_filter hy
          have hge := sorted_drop_ge S hs m hm y hy2
          have hle2 : eventKey y ≤ eventKey (S.get ⟨m, hm⟩) := by simpa using hy1
          have heq : eventKey y = eventKey (S.get ⟨m, hm⟩) := le_antisymm hle2 hge
          have hsign := eventKey_sign heq
          have : ¬ y.2 < 0 := fun hc => hneg (hsign.mp hc)
          omega
        have hcut : cutSum S (eventKey (S.get ⟨m, hm⟩))
            = prefSum S (m + 1)
              + (((S.drop (m + 1)).filter
                  (fun e => decide (eventKey e ≤ eventKey (S.get ⟨m, hm⟩)))).map
                  (fun e => e.2)).sum := by
          have hx := cutSum_split S (eventKey (S.get ⟨m, hm⟩)) (m + 1)
          rw [hfilter_take] at hx
          exact hx
        have hnn : 0 ≤ (((S.drop (m + 1)).filter
            (fun e => decide (eventKey e ≤ eventKey (S.get ⟨m, hm⟩)))).map
            (fun e => e.2)).sum := by
          apply List.sum_nonneg
          intro z hz
          obtain ⟨y, hy, rfl⟩ := List.mem_map.mp hz
          exact hdrop_nonneg y hy
        omega
    · have h1 : S.take (m + 1) = S := List.take_of_length_le (by omega)
      have h2 : S.take m = S := List.take_of_length_le (by omega)
      have : prefSum S (m + 1) = prefSum S m := by
        unfold prefSum
        rw [h1, h2]
      rw [this]
      exact ih

theorem cutSum_append (E F : List (Nat × Int)) (k : Nat) :
    cutSum (E ++ F) k = cutSum E k + cutSum F k := by
  unfold cutSum
  rw [List.filter_append, List.map_append, List.sum_append]

theorem eventKey_arrival (a : Alloc) (h : 1 ≤ a.allocated_seats) :
    eventKey (a.start_at, (a.allocated_seats : Int)) = 2 * a.start_at + 1 := by
  unfold eventKey
  rw [if_neg (by omega : ¬ ((a.allocated_seats : Int) < 0))]

theorem eventKey_departure (a : Alloc) (h : 1 ≤ a.allocated_seats) :
    eventKey (a.end_at, -(a.allocated_seats : Int)) = 2 * a.end_at := by
  unfold eventKey
  rw [if_pos (by omega : (-(a.allocated_seats : Int) < 0))]
  omega

theorem cutSum_allocEvents_odd (a : Alloc) (hp : Proper a) (t : Nat) :
    cutSum (allocEvents a) (2 * t + 1) = seatsAt a t := by
  obtain ⟨h1, h2⟩ := hp
  unfold cutSum allocEvents seatsAt
  rw [List.filter_cons, List.filter_cons, List.filter_nil]
  rw [eventKey_arrival a h2, eventKey_departure a h2]
  by_cases hs : a.start_at ≤ t <;> by_cases he : a.end_at ≤ t
  · rw [if_pos (by simp; omega), if_pos (by simp; omega)]
    rw [if_neg (by omega : ¬ (a.start_at ≤ t ∧ t < a.end_at))]
    simp
  · rw [if_pos (by simp; omega), if_neg (by simp; omega)]
    rw [if_pos (by omega : a.start_at ≤ t ∧ t < a.end_at)]
    simp
  · omega
  · rw [if_neg (by simp; omega), if_neg (by simp; omega)]
    rw [if_neg (by omega : ¬ (a.start_at ≤ t ∧ t < a.end_at))]
    simp

theorem cutSum_allocEvents_even_nonneg (a : Alloc) (hp : Proper a) (t : Nat) :
    0 ≤ cutSum (allocEvents a) (2 * t) := by
  obtain ⟨h1, h2⟩ := hp
  unfold cutSum allocEvents
  rw [List.filter_cons, List.filter_cons, List.filter_nil]
  rw [eventKey_arrival a h2, eventKey_departure a h2]
  by_cases hs : a.start_at < t <;> by_cases he : a.end_at ≤ t
  · rw [if_pos (by simp; omega), if_pos (by simp; omega)]
    simp
  · rw [if_pos (by simp; omega), if_neg (by simp; omega)]
    simp
  · omega
  · rw [if_neg (by simp; omega), if_neg (by simp; omega)]
    simp

theorem cutSum_events_odd (l : List Alloc) (hp : ∀ a ∈ l, Proper a) (t : Nat) :
    cutSum (eventsOf l) (2 * t + 1) = loadAt l t := by
  induction l with
  | nil => simp [cutSum, eventsOf, loadAt]
  | cons a rest ih =>
    have hcons : eventsOf (a :: rest) = allocEvents a ++ eventsOf rest := by
      simp [eventsOf]
    rw [hcons, cutSum_append, cutSum_allocEvents_odd a (hp a (by simp)) t,
      ih (fun x hx => hp x (by simp [hx]))]
    simp [loadAt]

theorem cutSum_events_even_nonneg (l : List Alloc) (hp : ∀ a ∈ l, Proper a) (t : Nat) :
    0 ≤ cutSum (eventsOf l) (2 * t) := by
  induction l with
  | nil => simp [cutSum, eventsOf]
  | cons a rest ih =>
    have hcons : eventsOf (a :: rest) = allocEvents a ++ eventsOf rest := by
      simp [eventsOf]
    rw [hcons, cutSum_append]
    have h1 := cutSum_allocEvents_even_nonneg a (hp a (by simp)) t
    have h2 := ih (fun x hx => hp x (by simp [hx]))
    omega

theorem loadAt_le_prefMax (l : List Alloc) (hp : ∀ a ∈ l, Proper a) (t : Nat) :
    loadAt l t ≤ prefMax 0 (sortEvents (eventsOf l)) := by
  have hperm : (sortEvents (eventsOf l)).Perm (eventsOf l) :=
    List.perm_insertionSort _ _
  have hsorted : List.Sorted eventLE (sortEvents (eventsOf l)) :=
    List.sorted_insertionSort _ _
  rw [← cutSum_events_odd l hp t, ← cutSum_perm hperm]
  exact cutSum_le_prefMax _ hsorted _

theorem loadAt_le_sweepPeak (l : List Alloc) (hp : ∀ a ∈ l, Proper a) (t : Nat) :
    loadAt l t ≤ sweepPeak l := by
  rw [sweepPeak_eq_prefMax]
  exact loadAt_le_prefMax l hp t

theorem sweepPeak_cases (l : List Alloc) (hp : ∀ a ∈ l, Proper a) :
    sweepPeak l ≤ 0 ∨ ∃ a ∈ l, sweepPeak l ≤ loadAt l a.start_at := by
  rw [sweepPeak_eq_prefMax]
  have hperm : (sortEvents (eventsOf l)).Perm (eventsOf l) :=
    List.perm_insertionSort _ _
  have hsorted : List.Sorted eventLE (sortEvents (eventsOf l)) :=
    List.sorted_insertionSort _ _
  obtain ⟨n, hn⟩ := prefMax_eq_some_prefSum (sortEvents (eventsOf l)) 0
  rcases prefSum_le_arrival_cut (sortEvents (eventsOf l)) hsorted n with h | ⟨e, he, hpos, hle⟩
  · left; omega
  · right
    have hmem : e ∈ eventsOf l := hperm.subset he
    obtain ⟨a, ha, hae⟩ := List.mem_flatMap.mp hmem
    have hseats := (hp a ha).2
    rcases List.mem_cons.mp hae with h1 | h1
    · refine ⟨a, ha, ?_⟩
      have hkey : eventKey e = 2 * a.start_at + 1 := by
        rw [h1]; exact eventKey_arrival a hseats
      have hchain : cutSum (sortEvents (eventsOf l)) (eventKey e) = loadAt l a.start_at := by
        rw [cutSum_perm hperm, hkey]
        exact cutSum_events_odd l hp a.start_at
      omega
    · exfalso
      have h2 : e = (a.end_at, -(a.allocated_seats : Int)) := by
        simpa [allocEvents] using h1
      rw [h2] at hpos
      simp at hpos
      omega

theorem foldr_max_le {L : List Int} {b init : Int} (hinit : init ≤ b)
    (h : ∀ x ∈ L, x ≤ b) : L.foldr max init ≤ b := by
  induction L with
  | nil => exact hinit
  | cons x rest ih =>
    simp only [List.foldr_cons]
    exact max_le (h x (by simp)) (ih fun y hy => h y (by simp [hy]))

theorem le_foldr_max_of_mem {L : List Int} {x init : Int} (h : x ∈ L) :
    x ≤ L.foldr max init := by
  induction L with
  | nil => cases h
  | cons y rest ih =>
    simp only [List.foldr_cons]
    rcases List.mem_cons.mp h with h1 | h1
    · rw [h1]; exact le_max_left _ _
    · exact le_trans (ih h1) (le_max_right _ _)

theorem init_le_foldr_max {L : List Int} {init : Int} : init ≤ L.foldr max init := by
  induction L with
  | nil => exact le_refl _
  | cons y rest ih =>
    simp only [List.foldr_cons]
    exact le_trans ih (le_max_right _ _)

theorem capacityEvents_eq (overlaps : List Alloc) (cand : Alloc) :
    capacityEvents overlaps cand = eventsOf (overlaps ++ [cand]) := by
  unfold capacityEvents eventsOf
  rw [List.flatMap_append]
  simp

theorem validateCapacity_error_iff (cap : Nat) (overlaps : List Alloc) (cand : Alloc)
    (hp : ∀ a ∈ overlaps ++ [cand], Proper a) :
    validateCapacity cap overlaps cand = .error .capacity
      ↔ ∃ t, (cap : Int) < loadAt (overlaps ++ [cand]) t := by
  have hiff := capacitySweepFails_iff cap (sortEvents (eventsOf (overlaps ++ [cand]))) 0
    (by exact_mod_cast Nat.zero_le cap)
  unfold validateCapacity
  rw [capacityEvents_eq]
  by_cases hb : capacitySweepFails cap 0 (sortEvents (eventsOf (overlaps ++ [cand]))) = true
  · rw [if_pos hb]
    have hlt := hiff.mp hb
    rw [← sweepPeak_eq_prefMax] at hlt
    constructor
    · intro _
      rcases sweepPeak_cases _ hp with h | ⟨a, _, hle⟩
      · have : (0 : Int) ≤ (cap : Int) := by exact_mod_cast Nat.zero_le cap
        omega
      · exact ⟨a.start_at, by omega⟩
    · intro _; trivial
  · rw [if_neg hb]
    have hnot : ¬ ((cap : Int) < prefMax 0 (sortEvents (eventsOf (overlaps ++ [cand])))) :=
      fun hc => hb (hiff.mpr hc)
    constructor
    · intro hc; simp at hc
    · rintro ⟨t, ht⟩
      exfalso
      have := loadAt_le_prefMax _ hp t
      omega

theorem validateCapacity_ok_iff (cap : Nat) (overlaps : List Alloc) (cand : Alloc)
    (hp : ∀ a ∈ overlaps ++ [cand], Proper a) :
    validateCapacity cap overlaps cand = .ok ()
      ↔ ∀ t, loadAt (overlaps ++ [cand]) t ≤ (cap : Int) := by
  have herr := validateCapacity_error_iff cap overlaps cand hp
  unfold validateCapacity at herr ⊢
  by_cases hb : capacitySweepFails cap 0 (sortEvents (capacityEvents overlaps cand)) = true
  · rw [if_pos hb] at herr ⊢
    constructor
    · intro hc; simp at hc
    · intro hall
      obtain ⟨t, ht⟩ := herr.mp (by trivial)
      exact absurd (hall t) (by omega)
  · rw [if_neg hb] at herr ⊢
    constructor
    · intro _ t
      by_contra hc
      exact absurd (herr.mpr ⟨t, by omega⟩) (by simp)
    · intro _; trivial

theorem list_sum_nonpos {L : List Int} (h : ∀ x ∈ L, x ≤ 0) : L.sum ≤ 0 := by
  induction L with
  | nil => simp
  | cons x rest ih =>
    simp only [List.sum_cons]
    have h1 := h x (by simp)
    have h2 := ih fun y hy => h y (by simp [hy])
    omega

theorem eventsOf_sum_zero (l : List Alloc) : ((eventsOf l).map (fun e => e.2)).sum = 0 := by
  induction l with
  | nil => simp [eventsOf]
  | cons a rest ih =>
    have hcons : eventsOf (a :: rest) = allocEvents a ++ eventsOf rest := by
      simp [eventsOf]
    rw [hcons, List.map_append, List.sum_append, ih]
    simp [allocEvents]

theorem prefSum_nonneg_sorted (l : List Alloc) (hp : ∀ a ∈ l, Proper a) :
    ∀ n, 0 ≤ prefSum (sortEvents (eventsOf l)) n := by
  have hperm : (sortEvents (eventsOf l)).Perm (eventsOf l) :=
    List.perm_insertionSort _ _
  have hsorted : List.Sorted eventLE (sortEvents (eventsOf l)) :=
    List.sorted_insertionSort _ _
  intro n
  induction n with
  | zero => simp [prefSum]
  | succ m ih =>
    by_cases hm : m < (sortEvents (eventsOf l)).length
    · have hsplit := prefSum_succ_of_lt (sortEvents (eventsOf l)) m hm
      by_cases hneg : ((sortEvents (eventsOf l)).get ⟨m, hm⟩).2 < 0
      · have hkey : eventKey ((sortEvents (eventsOf l)).get ⟨m, hm⟩)
            = 2 * ((sortEvents (eventsOf l)).get ⟨m, hm⟩).1 := by
          unfold eventKey
          rw [if_pos hneg]
          omega
        have hfilter_take :
            ((sortEvents (eventsOf l)).take (m + 1)).filter
              (fun e => decide (eventKey e ≤ eventKey ((sortEvents (eventsOf l)).get ⟨m, hm⟩)))
              = (sortEvents (eventsOf l)).take (m + 1) := by
          rw [List.filter_eq_self]
          intro a ha
          simpa using sorted_take_le (sortEvents (eventsOf l)) hsorted m hm a ha
        have hdrop_nonpos : ∀ y ∈ ((sortEvents (eventsOf l)).drop (m + 1)).filter
            (fun e => decide (eventKey e ≤ eventKey ((sortEvents (eventsOf l)).get ⟨m, hm⟩))),
            y.2 ≤ (0 : Int) := by
          intro y hy
          have hy1 := List.of_mem_filter hy
          have hy2 := List.mem_of_mem_filter hy
          have hge := sorted_drop_ge (sortEvents (eventsOf l)) hsorted m hm y hy2
          have hle2 : eventKey y ≤ eventKey ((sortEvents (eventsOf l)).get ⟨m, hm⟩) := by
            simpa using hy1
          have heq : eventKey y = eventKey ((sortEvents (eventsOf l)).get ⟨m, hm⟩) :=
            le_antisymm hle2 hge
          have hsign := eventKey_sign heq
          have : y.2 < 0 := hsign.mpr hneg
          omega
        have hx := cutSum_split (sortEvents (eventsOf l))
          (eventKey ((sortEvents (eventsOf l)).get ⟨m, hm⟩)) (m + 1)
        rw [hfilter_take] at hx
        have hnp : (((((sortEvents (eventsOf l)).drop (m + 1)).filter
            (fun e => decide (eventKey e
              ≤ eventKey ((sortEvents (eventsOf l)).get ⟨m, hm⟩)))).map
            (fun e => e.2)).sum) ≤ 0 := by
          apply list_sum_nonpos
          intro z hz
          obtain ⟨y, hy, rfl⟩ := List.mem_map.mp hz
          exact hdrop_nonpos y hy
        have hcut_nonneg : 0 ≤ cutSum (sortEvents (eventsOf l))
            (eventKey ((sortEvents (eventsOf l)).get ⟨m, hm⟩)) := by
          rw [cutSum_perm hperm, hkey]
          exact cutSum_events_even_nonneg l hp _
        have hus : prefSum (sortEvents (eventsOf l)) (m + 1)
            = (((sortEvents (eventsOf l)).take (m + 1)).map (fun e => e.2)).sum := rfl
        omega
      · omega
    · have h1 : (sortEvents (eventsOf l)).take (m + 1) = sortEvents (eventsOf l) :=
        List.take_of_length_le (by omega)
      have h2 : (sortEvents (eventsOf l)).take m = sortEvents (eventsOf l) :=
        List.take_of_length_le (by omega)
      have heq : prefSum (sortEvents (eventsOf l)) (m + 1)
          = prefSum (sortEvents (eventsOf l)) m := by
        unfold prefSum
        rw [h1, h2]
      rw [heq]
      exact ih

theorem validateTermWindow_cases (term : TermRec) (cand : Alloc) :
    validateTermWindow term cand = .ok () ∨ validateTermWindow term cand = .error .termWindow := by
  unfold validateTermWindow
  split
  · right; rfl
  · left; rfl

theorem validateBlackouts_cases (bs : List BlackoutRec) (cand : Alloc) :
    validateBlackouts bs cand = .ok () ∨ validateBlackouts bs cand = .error .blackout := by
  unfold validateBlackouts
  split
  · right; rfl
  · left; rfl

theorem validateHolidays_cases (hs : List HolidayRec) (cand : Alloc) :
    validateHolidays hs cand = .ok () ∨ validateHolidays hs cand = .error .holiday := by
  unfold validateHolidays
  split
  · right; rfl
  · left; rfl

theorem validateCapacity_cases (cap : Nat) (overlaps : List Alloc) (cand : Alloc) :
    validateCapacity cap overlaps cand = .ok ()
      ∨ validateCapacity cap overlaps cand = .error .capacity := by
  unfold validateCapacity
  split
  · right; rfl
  · left; rfl

theorem cleanPipelineWith_of_term_error (env : Env) (overlaps : List Alloc) (cand : Alloc)
    (h : validateTermWindow env.term cand = .error .termWindow) :
    cleanPipelineWith env overlaps cand = .error .termWindow := by
  unfold cleanPipelineWith
  rw [h]
  rfl

theorem cleanPipelineWith_of_blackout_error (env : Env) (overlaps : List Alloc) (cand : Alloc)
    (h1 : validateTermWindow env.term cand = .ok ())
    (h2 : validateBlackouts env.blackouts cand = .error .blackout) :
    cleanPipelineWith env overlaps cand = .error .blackout := by
  unfold cleanPipelineWith
  rw [h1]
  show validateBlackouts env.blackouts cand >>= _ = _
  rw [h2]
  rfl

theorem cleanPipelineWith_of_holiday_error (env : Env) (overlaps : List Alloc) (cand : Alloc)
    (h1 : validateTermWindow env.term cand = .ok ())
    (h2 : validateBlackouts env.blackouts cand = .ok ())
    (h3 : validateHolidays env.holidays cand = .error .holiday) :
    cleanPipelineWith env overlaps cand = .error .holiday := by
  unfold cleanPipelineWith
  rw [h1]
  show validateBlackouts env.blackouts cand >>= _ = _
  rw [h2]
  show validateHolidays env.holidays cand >>= _ = _
  rw [h3]
  rfl

theorem cleanPipelineWith_of_front_ok (env : Env) (overlaps : List Alloc) (cand : Alloc)
    (h1 : validateTermWindow env.term cand = .ok ())
    (h2 : validateBlackouts env.blackouts cand = .ok ())
    (h3 : validateHolidays env.holidays cand = .ok ()) :
    cleanPipelineWith env overlaps cand
      = validateCapacity (env.capacity cand.room) overlaps cand := by
  unfold cleanPipelineWith
  rw [h1]
  show validateBlackouts env.blackouts cand >>= _ = _
  rw [h2]
  show validateHolidays env.holidays cand >>= _ = _
  rw [h3]
  rfl

theorem cleanPipelineWith_ok_iff (env : Env) (overlaps : List Alloc) (cand : Alloc) :
    cleanPipelineWith env overlaps cand = .ok ()
      ↔ validateTermWindow env.term cand = .ok ()
        ∧ validateBlackouts env.blackouts cand = .ok ()
        ∧ validateHolidays env.holidays cand = .ok ()
        ∧ validateCapacity (env.capacity cand.room) overlaps cand = .ok () := by
  constructor
  · intro h
    rcases validateTermWindow_cases env.term cand with h1 | h1
    · rcases validateBlackouts_cases env.blackouts cand with h2 | h2
      · rcases validateHolidays_cases env.holidays cand with h3 | h3
        · refine ⟨h1, h2, h3, ?_⟩
          rw [← cleanPipelineWith_of_front_ok env overlaps cand h1 h2 h3]
          exact h
        · rw [cleanPipelineWith_of_holiday_error env overlaps cand h1 h2 h3] at h
          cases h
      · rw [cleanPipelineWith_of_blackout_error env overlaps cand h1 h2] at h
        cases h
    · rw [cleanPipelineWith_of_term_error env overlaps cand h1] at h
      cases h
  · rintro ⟨h1, h2, h3, h4⟩
    rw [cleanPipelineWith_of_front_ok env overlaps cand h1 h2 h3]
    exact h4

theorem fullCleanWith_nil_iff (env : Env) (overlaps : List Alloc) (cand : Alloc) :
    fullCleanWith env overlaps cand = []
      ↔ 1 ≤ cand.allocated_seats ∧ cleanPipelineWith env overlaps cand = .ok ()
          ∧ cand.start_at < cand.end_at := by
  unfold fullCleanWith
  cases hpipe : cleanPipelineWith env overlaps cand with
  | ok u =>
    cases u
    by_cases h1 : cand.allocated_seats < 1 <;> by_cases h3 : cand.start_at < cand.end_at <;>
      simp [h1, h3, startAtExcluded] <;> omega
  | error v =>
    by_cases h1 : cand.allocated_seats < 1 <;> by_cases h3 : cand.start_at < cand.end_at <;>
      simp [h1, h3]

theorem persist_some (env : Env) (db : List Alloc) (cand : Alloc) (db' : List Alloc)
    (h : persist env db cand = some db') :
    db' = db ++ [cand] ∧ Proper cand
      ∧ validateCapacity (env.capacity cand.room) (overlapFilter db cand) cand = .ok () := by
  unfold persist at h
  by_cases hc : fullCleanErrors env db cand = []
  · rw [if_pos hc] at h
    have hnil := (fullCleanWith_nil_iff env (overlapFilter db cand) cand).mp hc
    have hcap := ((cleanPipelineWith_ok_iff env (overlapFilter db cand) cand).mp hnil.2.1).2.2.2
    refine ⟨?_, ⟨hnil.2.2, hnil.1⟩, hcap⟩
    exact (Option.some_inj.mp h).symm
  · rw [if_neg hc] at h
    cases h

theorem loadAt_append (l1 l2 : List Alloc) (t : Nat) :
    loadAt (l1 ++ l2) t = loadAt l1 t + loadAt l2 t := by
  unfold loadAt
  rw [List.map_append, List.sum_append]

theorem seatsAt_zero_of_no_overlap (a cand : Alloc) (t : Nat)
    (ht : cand.start_at ≤ t ∧ t < cand.end_at)
    (hno : ¬ (a.start_at < cand.end_at ∧ cand.start_at < a.end_at)) : seatsAt a t = 0 := by
  unfold seatsAt
  rw [if_neg]
  push_neg at hno
  omega

theorem loadAt_overlapFilter (db : List Alloc) (cand : Alloc) (t : Nat)
    (ht : cand.start_at ≤ t ∧ t < cand.end_at) :
    loadAt (roomAllocs db cand.room) t = loadAt (overlapFilter db cand) t := by
  induction db with
  | nil => rfl
  | cons a rest ih =>
    unfold roomAllocs overlapFilter at ih ⊢
    rw [List.filter_cons, List.filter_cons]
    by_cases hr : a.room = cand.room
    · by_cases hov : a.start_at < cand.end_at ∧ cand.start_at < a.end_at
      · rw [if_pos (by simp [hr]), if_pos (by simp [hr, hov.1, hov.2])]
        unfold loadAt at ih ⊢
        simp only [List.map_cons, List.sum_cons]
        omega
      · rw [if_pos (by simp [hr]), if_neg (by simp [hr]; intro h1; omega)]
        unfold loadAt at ih ⊢
        simp only [List.map_cons, List.sum_cons]
        rw [seatsAt_zero_of_no_overlap a cand t ht hov]
        omega
    · rw [if_neg (by simp [hr]), if_neg (by simp [hr])]
      exact ih

theorem roomAllocs_append (db l2 : List Alloc) (r : Nat) :
    roomAllocs (db ++ l2) r = roomAllocs db r ++ roomAllocs l2 r := by
  unfold roomAllocs
  rw [List.filter_append]

theorem overlapFilter_subset (db : List Alloc) (cand : Alloc) :
    ∀ a ∈ overlapFilter db cand, a ∈ db := by
  intro a ha
  exact List.mem_of_mem_filter ha

theorem reachable_invariant (env : Env) (db : List Alloc) (h : Reachable env db) :
    (∀ a ∈ db, Proper a)
      ∧ ∀ r t, loadAt (roomAllocs db r) t ≤ (env.capacity r : Int) := by
  induction h with
  | empty =>
    constructor
    · intro a ha; cases ha
    · intro r t
      have : (0 : Int) ≤ (env.capacity r : Int) := by exact_mod_cast Nat.zero_le _
      simpa [roomAllocs, loadAt] using this
  | step hreach hpersist ih =>
    rename_i db0 db1 cand
    obtain ⟨hdbprop, hload⟩ := ih
    obtain ⟨hdb1, hcandp, hcap⟩ := persist_some env db0 cand db1 hpersist
    subst hdb1
    have hpall : ∀ a ∈ overlapFilter db0 cand ++ [cand], Proper a := by
      intro a ha
      rcases List.mem_append.mp ha with h1 | h1
      · exact hdbprop a (overlapFilter_subset db0 cand a h1)
      · rw [List.mem_singleton.mp h1]
        exact hcandp
    constructor
    · intro a ha
      rcases List.mem_append.mp ha with h1 | h1
      · exact hdbprop a h1
      · rw [List.mem_singleton.mp h1]
        exact hcandp
    · intro r t
      rw [roomAllocs_append, loadAt_append]
      by_cases hr : r = cand.room
      · subst hr
        have hc : roomAllocs [cand] cand.room = [cand] := by
          simp [roomAllocs]
        rw [hc]
        by_cases ht : cand.start_at ≤ t ∧ t < cand.end_at
        · have hdecomp := loadAt_overlapFilter db0 cand t ht
          have hcapall := (validateCapacity_ok_iff _ _ _ hpall).mp hcap t
          rw [loadAt_append] at hcapall
          rw [hdecomp]
          exact hcapall
        · have hz : loadAt [cand] t = 0 := by
            unfold loadAt seatsAt
            simp only [List.map_cons, List.map_nil, List.sum_cons, List.sum_nil]
            rw [if_neg ht]
            simp
          rw [hz, add_zero]
          exact hload cand.room t
      · have hc : roomAllocs [cand] r = [] := by
          simp [roomAllocs]
          intro hcr
          exact absurd hcr.symm hr
        rw [hc]
        have hz : loadAt ([] : List Alloc) t = 0 := rfl
        rw [hz, add_zero]
        exact hload r t

theorem processAllocDay_spec (s e : Nat) (a : Alloc) (B : DayBuckets) (d0 d : Nat) :
    ((processAllocDay s e a B d0).ev d
        = B.ev d ++ (if d = d0 ∧ s ≤ d0 ∧ d0 ≤ e ∧ clipStart a d0 < clipEnd a d0 then
            [(clipStart a d0, (a.allocated_seats : Int)),
             (clipEnd a d0, -(a.allocated_seats : Int))] else []))
      ∧ ((processAllocDay s e a B d0).tot d
        = B.tot d + (if d = d0 ∧ s ≤ d0 ∧ d0 ≤ e ∧ clipStart a d0 < clipEnd a d0 then
            a.allocated_seats else 0))
      ∧ ((processAllocDay s e a B d0).cnt d
        = B.cnt d + (if d = d0 ∧ s ≤ d0 ∧ d0 ≤ e ∧ clipStart a d0 < clipEnd a d0 then 1 else 0)) := by
  unfold processAllocDay
  by_cases hrange : d0 < s ∨ e < d0
  · have hcond : ¬ (d = d0 ∧ s ≤ d0 ∧ d0 ≤ e ∧ clipStart a d0 < clipEnd a d0) := by
      rintro ⟨_, h2, h3, _⟩
      omega
    rw [if_pos hrange, if_neg hcond, if_neg hcond, if_neg hcond]
    simp
  · rw [if_neg hrange]
    by_cases hclip : clipStart a d0 < clipEnd a d0
    · rw [if_pos hclip]
      by_cases hd : d = d0
      · subst hd
        have hcond : d = d ∧ s ≤ d ∧ d ≤ e ∧ clipStart a d < clipEnd a d :=
          ⟨rfl, by omega, by omega, hclip⟩
        rw [if_pos hcond, if_pos hcond, if_pos hcond]
        simp
      · have hcond : ¬ (d = d0 ∧ s ≤ d0 ∧ d0 ≤ e ∧ clipStart a d0 < clipEnd a d0) := by
          rintro ⟨h1, _⟩
          exact hd h1
        rw [if_neg hcond, if_neg hcond, if_neg hcond]
        simp [hd]
    · rw [if_neg hclip]
      have hcond : ¬ (d = d0 ∧ s ≤ d0 ∧ d0 ≤ e ∧ clipStart a d0 < clipEnd a d0) := by
        rintro ⟨_, _, _, h4⟩
        exact hclip h4
      rw [if_neg hcond, if_neg hcond, if_neg hcond]
      simp

theorem foldl_processAllocDay_spec (s e : Nat) (a : Alloc) :
    ∀ (days : List Nat), days.Nodup → ∀ (B : DayBuckets) (d : Nat),
      (((days.foldl (processAllocDay s e a) B).ev d
          = B.ev d ++ (if d ∈ days ∧ s ≤ d ∧ d ≤ e ∧ clipStart a d < clipEnd a d then
              [(clipStart a d, (a.allocated_seats : Int)),
               (clipEnd a d, -(a.allocated_seats : Int))] else []))
        ∧ ((days.foldl (processAllocDay s e a) B).tot d
          = B.tot d + (if d ∈ days ∧ s ≤ d ∧ d ≤ e ∧ clipStart a d < clipEnd a d then
              a.allocated_seats else 0))
        ∧ ((days.foldl (processAllocDay s e a) B).cnt d
          = B.cnt d + (if d ∈ days ∧ s ≤ d ∧ d ≤ e ∧ clipStart a d < clipEnd a d then 1 else 0))) := by
  intro days
  induction days with
  | nil =>
    intro _ B d
    have hcond : ¬ (d ∈ ([] : List Nat) ∧ s ≤ d ∧ d ≤ e ∧ clipStart a d < clipEnd a d) := by
      rintro ⟨h1, _⟩
      cases h1
    rw [if_neg hcond, if_neg hcond, if_neg hcond]
    simp [List.foldl]
  | cons d0 rest ih =>
    intro hnd B d
    have hnd2 := (List.nodup_cons.mp hnd).2
    have hd0nr := (List.nodup_cons.mp hnd).1
    obtain ⟨he2, ht2, hc2⟩ := processAllocDay_spec s e a B d0 d
    obtain ⟨he1, ht1, hc1⟩ := ih hnd2 (processAllocDay s e a B d0) d
    rw [List.foldl_cons]
    by_cases hd : d = d0
    · subst hd
      have hnr : ¬ (d ∈ rest ∧ s ≤ d ∧ d ≤ e ∧ clipStart a d < clipEnd a d) := by
        rintro ⟨h1, _⟩
        exact hd0nr h1
      refine ⟨?_, ?_, ?_⟩
      · rw [he1, if_neg hnr, List.append_nil, he2]
        by_cases hcond : s ≤ d ∧ d ≤ e ∧ clipStart a d < clipEnd a d
        · rw [if_pos ⟨rfl, hcond.1, hcond.2.1, hcond.2.2⟩,
            if_pos ⟨List.mem_cons_self d rest, hcond.1, hcond.2.1, hcond.2.2⟩]
        · rw [if_neg (by rintro ⟨_, hx1, hx2, hx3⟩; exact hcond ⟨hx1, hx2, hx3⟩),
            if_neg (by rintro ⟨_, hx1, hx2, hx3⟩; exact hcond ⟨hx1, hx2, hx3⟩)]
      · rw [ht1, if_neg hnr, ht2]
        by_cases hcond : s ≤ d ∧ d ≤ e ∧ clipStart a d < clipEnd a d
        · rw [if_pos ⟨rfl, hcond.1, hcond.2.1, hcond.2.2⟩,
            if_pos ⟨List.mem_cons_self d rest, hcond.1, hcond.2.1, hcond.2.2⟩]
          omega
        · rw [if_neg (by rintro ⟨_, hx1, hx2, hx3⟩; exact hcond ⟨hx1, hx2, hx3⟩),
            if_neg (by rintro ⟨_, hx1, hx2, hx3⟩; exact hcond ⟨hx1, hx2, hx3⟩)]
      · rw [hc1, if_neg hnr, hc2]
        by_cases hcond : s ≤ d ∧ d ≤ e ∧ clipStart a d < clipEnd a d
        · rw [if_pos ⟨rfl, hcond.1, hcond.2.1, hcond.2.2⟩,
            if_pos ⟨List.mem_cons_self d rest, hcond.1, hcond.2.1, hcond.2.2⟩]
        · rw [if_neg (by rintro ⟨_, hx1, hx2, hx3⟩; exact hcond ⟨hx1, hx2, hx3⟩),
            if_neg (by rintro ⟨_, hx1, hx2, hx3⟩; exact hcond ⟨hx1, hx2, hx3⟩)]
    · have hne : ¬ (d = d0 ∧ s ≤ d0 ∧ d0 ≤ e ∧ clipStart a d0 < clipEnd a d0) := by
        rintro ⟨h1, _⟩
        exact hd h1
      rw [if_neg hne] at he2 ht2 hc2
      rw [List.append_nil] at he2
      have hmem : (d ∈ d0 :: rest ∧ s ≤ d ∧ d ≤ e ∧ clipStart a d < clipEnd a d)
          ↔ (d ∈ rest ∧ s ≤ d ∧ d ≤ e ∧ clipStart a d < clipEnd a d) := by
        constructor
        · rintro ⟨h1, h2⟩
          rcases List.mem_cons.mp h1 with hx | hx
          · exact absurd hx hd
          · exact ⟨hx, h2⟩
        · rintro ⟨h1, h2⟩
          exact ⟨List.mem_cons_of_mem d0 h1, h2⟩
      refine ⟨?_, ?_, ?_⟩
      · rw [he1, he2]
        by_cases hcond : d ∈ rest ∧ s ≤ d ∧ d ≤ e ∧ clipStart a d < clipEnd a d
        · rw [if_pos hcond, if_pos (hmem.mpr hcond)]
        · rw [if_neg hcond, if_neg (fun hx => hcond (hmem.mp hx))]
      · rw [ht1, ht2]
        by_cases hcond : d ∈ rest ∧ s ≤ d ∧ d ≤ e ∧ clipStart a d < clipEnd a d
        · rw [if_pos hcond, if_pos (hmem.mpr hcond)]
          omega
        · rw [if_neg hcond, if_neg (fun hx => hcond (hmem.mp hx))]
      · rw [hc1, hc2]
        by_cases hcond : d ∈ rest ∧ s ≤ d ∧ d ≤ e ∧ clipStart a d < clipEnd a d
        · rw [if_pos hcond, if_pos (hmem.mpr hcond)]
        · rw [if_neg hcond, if_neg (fun hx => hcond (hmem.mp hx))]

theorem daySpan_nodup (a : Alloc) : (daySpan a).Nodup := by
  unfold daySpan
  exact List.nodup_range' _ _

theorem mem_daySpan (a : Alloc) (d : Nat) :
    d ∈ daySpan a ↔ dateOf a.start_at ≤ d ∧ d ≤ dateOf (a.end_at - 1) := by
  unfold daySpan
  rw [List.mem_range'_1]
  omega

theorem touchesDay_iff (s e d : Nat) (a : Alloc) :
    touchesDay s e d a = true
      ↔ (d ∈ daySpan a ∧ s ≤ d ∧ d ≤ e ∧ clipStart a d < clipEnd a d) := by
  unfold touchesDay
  rw [mem_daySpan]
  simp only [Bool.and_eq_true, decide_eq_true_eq]
  constructor
  · rintro ⟨⟨⟨⟨h1, h2⟩, h3⟩, h4⟩, h5⟩
    exact ⟨⟨h1, h2⟩, h3, h4, h5⟩
  · rintro ⟨⟨h1, h2⟩, h3, h4, h5⟩
    exact ⟨⟨⟨⟨h1, h2⟩, h3⟩, h4⟩, h5⟩

theorem processAlloc_spec (s e : Nat) (B : DayBuckets) (a : Alloc) (d : Nat) :
    ((processAlloc s e B a).ev d
        = B.ev d ++ (if touchesDay s e d a = true then
            [(clipStart a d, (a.allocated_seats : Int)),
             (clipEnd a d, -(a.allocated_seats : Int))] else []))
      ∧ ((processAlloc s e B a).tot d
        = B.tot d + (if touchesDay s e d a = true then a.allocated_seats else 0))
      ∧ ((processAlloc s e B a).cnt d
        = B.cnt d + (if touchesDay s e d a = true then 1 else 0)) := by
  unfold processAlloc
  obtain ⟨he, ht, hc⟩ := foldl_processAllocDay_spec s e a (daySpan a) (daySpan_nodup a) B d
  refine ⟨?_, ?_, ?_⟩
  · rw [he]
    by_cases hcond : d ∈ daySpan a ∧ s ≤ d ∧ d ≤ e ∧ clipStart a d < clipEnd a d
    · rw [if_pos hcond, if_pos ((touchesDay_iff s e d a).mpr hcond)]
    · rw [if_neg hcond, if_neg (fun hx => hcond ((touchesDay_iff s e d a).mp hx))]
  · rw [ht]
    by_cases hcond : d ∈ daySpan a ∧ s ≤ d ∧ d ≤ e ∧ clipStart a d < clipEnd a d
    · rw [if_pos hcond, if_pos ((touchesDay_iff s e d a).mpr hcond)]
    · rw [if_neg hcond, if_neg (fun hx => hcond ((touchesDay_iff s e d a).mp hx))]
  · rw [hc]
    by_cases hcond : d ∈ daySpan a ∧ s ≤ d ∧ d ≤ e ∧ clipStart a d < clipEnd a d
    · rw [if_pos hcond, if_pos ((touchesDay_iff s e d a).mpr hcond)]
    · rw [if_neg hcond, if_neg (fun hx => hcond ((touchesDay_iff s e d a).mp hx))]

theorem foldl_processAlloc_spec (s e d : Nat) :
    ∀ (L : List Alloc) (B : DayBuckets),
      (((L.foldl (processAlloc s e) B).ev d
          = B.ev d ++ eventsOf ((L.filter (touchesDay s e d)).map (fun a => clipAlloc a d)))
        ∧ ((L.foldl (processAlloc s e) B).tot d
          = B.tot d + sumSeats (L.filter (touchesDay s e d)))
        ∧ ((L.foldl (processAlloc s e) B).cnt d
          = B.cnt d + (L.filter (touchesDay s e d)).length)) := by
  intro L
  induction L with
  | nil =>
    intro B
    simp [eventsOf, sumSeats]
  | cons a rest ih =>
    intro B
    obtain ⟨he2, ht2, hc2⟩ := processAlloc_spec s e B a d
    obtain ⟨he1, ht1, hc1⟩ := ih (processAlloc s e B a)
    rw [List.foldl_cons, List.filter_cons]
    by_cases htc : touchesDay s e d a = true
    · rw [if_pos htc]
      rw [if_pos htc] at he2 ht2 hc2
      refine ⟨?_, ?_, ?_⟩
      · rw [he1, he2, List.append_assoc]
        simp [eventsOf, allocEvents, clipAlloc]
      · rw [ht1, ht2]
        have : sumSeats (a :: rest.filter (touchesDay s e d))
            = a.allocated_seats + sumSeats (rest.filter (touchesDay s e d)) := by
          simp [sumSeats]
        rw [this]
        omega
      · rw [hc1, hc2, List.length_cons]
        omega
    · rw [if_neg htc]
      rw [if_neg htc] at he2 ht2 hc2
      rw [List.append_nil] at he2
      refine ⟨?_, ?_, ?_⟩
      · rw [he1, he2]
      · rw [ht1, ht2]
        omega
      · rw [hc1, hc2]
        omega

theorem buildBuckets_spec (s e : Nat) (allocs : List Alloc) (d : Nat) :
    ((buildBuckets s e allocs).ev d = eventsOf (dayAllocs s e d allocs))
      ∧ ((buildBuckets s e allocs).tot d
        = sumSeats ((windowFilter s e allocs).filter (touchesDay s e d)))
      ∧ ((buildBuckets s e allocs).cnt d
        = ((windowFilter s e allocs).filter (touchesDay s e d)).length) := by
  unfold buildBuckets dayAllocs
  obtain ⟨he, ht, hc⟩ := foldl_processAlloc_spec s e d (windowFilter s e allocs) emptyBuckets
  exact ⟨by rw [he]; simp [emptyBuckets], by rw [ht]; simp [emptyBuckets],
    by rw [hc]; simp [emptyBuckets]⟩

theorem heatmapRoom_length (capacity s e : Nat) (allocs : List Alloc) :
    (heatmapRoom capacity s e allocs).length = e + 1 - s := by
  unfold heatmapRoom
  rw [List.length_map, List.length_range']

theorem heatmapRoom_get (capacity s e : Nat) (allocs : List Alloc) (i : Nat)
    (hi : i < e + 1 - s) :
    (heatmapRoom capacity s e allocs)[i]? = some
      ⟨s + i,
        sweepPeak (dayAllocs s e (s + i) allocs),
        sumSeats ((windowFilter s e allocs).filter (touchesDay s e (s + i))),
        ((windowFilter s e allocs).filter (touchesDay s e (s + i))).length,
        round4 ((sweepPeak (dayAllocs s e (s + i) allocs) : ℚ)
          / (clampedCapacity capacity : ℚ))⟩ := by
  unfold heatmapRoom
  rw [List.getElem?_map, List.getElem?_range' _ _ hi]
  obtain ⟨he, ht, hc⟩ := buildBuckets_spec s e allocs (s + i)
  have hpk : sweepPeakLoop 0 0 (sortEvents ((buildBuckets s e allocs).ev (s + i)))
      = sweepPeak (dayAllocs s e (s + i) allocs) := by
    rw [he]
    rfl
  simp only [Option.map_some', one_mul]
  rw [hpk]
  unfold clampedCapacity
  rw [ht, hc]

theorem seatsAt_le_seats (a : Alloc) (t : Nat) : seatsAt a t ≤ (a.allocated_seats : Int) := by
  unfold seatsAt
  split
  · exact le_refl _
  · exact_mod_cast Nat.zero_le _

/-- C1: the capacity check builds arrival and departure events for the
overlap set plus the candidate, sweeps them in sorted order, and raises a
capacity violation keyed to the seats field exactly when the concurrent
load exceeds the room capacity at some instant; concretely, with capacity
100, allocations of 50 seats on 08:00-10:00 and 50 seats on 09:00-11:00
are accepted and a further 1-seat allocation on 09:30-10:30 is rejected. -/
theorem c1_capacity_sweep_iff_and_scenario :
    (∀ (cap : Nat) (overlaps : List Alloc) (cand : Alloc),
        (∀ a ∈ overlaps ++ [cand], Proper a) →
          (validateCapacity cap overlaps cand = .error .capacity
            ↔ ∃ t, (cap : Int) < loadAt (overlaps ++ [cand]) t))
      ∧ violationField .capacity = .allocated_seats
      ∧ validateCapacity 100 [] allocScenA = .ok ()
      ∧ validateCapacity 100 [allocScenA] allocScenB = .ok ()
      ∧ validateCapacity 100 [allocScenA, allocScenB] allocScenC = .error .capacity :=
  ⟨fun cap overlaps cand hp => validateCapacity_error_iff cap overlaps cand hp,
    rfl, by rfl, by rfl, by rfl⟩

/-- Witness for C1 at the scenario input: rejection of the 1-seat
allocation follows from the overload instant 09:30. -/
theorem c1_witness :
    validateCapacity 100 [allocScenA, allocScenB] allocScenC = .error .capacity :=
  (c1_capacity_sweep_iff_and_scenario.1 100 [allocScenA, allocScenB] allocScenC
    (by decide)).mpr ⟨34200000000, by decide⟩

/-- C4: for allocations whose arrivals lie inside the evaluated window,
the peak load reported by the sweep evaluator equals the true maximum
simultaneous seat sum obtained by brute-force simulation at microsecond
resolution over the window. -/
theorem c4_sweep_peak_eq_brute_force (l : List Alloc) (w0 w1 : Nat)
    (hp : ∀ a ∈ l, Proper a) (hw : ∀ a ∈ l, w0 ≤ a.start_at ∧ a.start_at ≤ w1) :
    bruteForcePeak l w0 w1 = sweepPeak l := by
  have hpk0 : (0 : Int) ≤ sweepPeak l := by
    rw [sweepPeak_eq_prefMax]
    exact prefMax_ge _ 0
  unfold bruteForcePeak
  apply le_antisymm
  · apply foldr_max_le hpk0
    intro x hx
    obtain ⟨t, ht, rfl⟩ := List.mem_map.mp hx
    exact loadAt_le_sweepPeak l hp t
  · rcases sweepPeak_cases l hp with h | ⟨a, ha, hle⟩
    · exact le_trans h init_le_foldr_max
    · refine le_trans hle (le_foldr_max_of_mem ?_)
      apply List.mem_map.mpr
      refine ⟨a.start_at, ?_, rfl⟩
      rw [List.mem_range'_1]
      have := hw a ha
      omega

/-- Witness for C4 on a small concrete pair of allocations. -/
theorem c4_witness :
    bruteForcePeak [allocTiny1, allocTiny2] 0 3 = sweepPeak [allocTiny1, allocTiny2] :=
  c4_sweep_peak_eq_brute_force [allocTiny1, allocTiny2] 0 3 (by decide) (by decide)

/-- C10: for proper allocations, the running load of the sorted event
sweep is nonnegative after every event, and it is exactly zero after the
last event. -/
theorem c10_running_load_nonneg_and_zero_final (l : List Alloc)
    (hp : ∀ a ∈ l, Proper a) :
    (∀ n, 0 ≤ prefSum (sortEvents (eventsOf l)) n)
      ∧ ((sortEvents (eventsOf l)).map (fun e => e.2)).sum = 0 := by
  refine ⟨prefSum_nonneg_sorted l hp, ?_⟩
  unfold sortEvents
  have hperm := List.perm_insertionSort eventLE (eventsOf l)
  rw [(hperm.map (fun e => e.2)).sum_eq]
  exact eventsOf_sum_zero l

/-- Witness for C10 on a small concrete pair of allocations. -/
theorem c10_witness :
    (0 : Int) ≤ prefSum (sortEvents (eventsOf [allocTiny1, allocTiny2])) 2
      ∧ ((sortEvents (eventsOf [allocTiny1, allocTiny2])).map (fun e => e.2)).sum = 0 :=
  ⟨(c10_running_load_nonneg_and_zero_final [allocTiny1, allocTiny2] (by decide)).1 2,
    (c10_running_load_nonneg_and_zero_final [allocTiny1, allocTiny2] (by decide)).2⟩

/-- C3: in every state reachable from the empty table by successful
validate-and-persist operations, the total seat load of every room at
every instant stays within that room capacity. -/
theorem c3_reachable_capacity_invariant (env : Env) (db : List Alloc)
    (h : Reachable env db) (r t : Nat) :
    loadAt (roomAllocs db r) t ≤ (env.capacity r : Int) :=
  (reachable_invariant env db h).2 r t

/-- Witness for C3: a one-step reachable state keeps room 1 within its
capacity at 09:00. -/
theorem c3_witness :
    loadAt (roomAllocs [allocBack1] 1) (hourUS 9) ≤ ((envPlain.capacity 1 : Nat) : Int) :=
  c3_reachable_capacity_invariant envPlain [allocBack1]
    (@Reachable.step envPlain [] [allocBack1] allocBack1 Reachable.empty (by decide)) 1 (hourUS 9)

/-- C2: two allocations in the same room that meet back-to-back at instant
T are treated as non-overlapping, and both are accepted by
validate-and-persist whenever their combined seats fit the room capacity
and no other constraint is violated. -/
theorem c2_back_to_back_accepted (env : Env) (a1 a2 : Alloc) (T : Nat)
    (hroom : a1.room = a2.room)
    (hend : a1.end_at = T) (hstart : a2.start_at = T)
    (h1 : a1.start_at < T) (h2 : T < a2.end_at)
    (hs1 : 1 ≤ a1.allocated_seats) (hs2 : 1 ≤ a2.allocated_seats)
    (hcomb : a1.allocated_seats + a2.allocated_seats ≤ env.capacity a2.room)
    (hterm1 : validateTermWindow env.term a1 = .ok ())
    (hterm2 : validateTermWindow env.term a2 = .ok ())
    (hblk : env.blackouts = []) (hhol : env.holidays = []) :
    persist env [] a1 = some [a1] ∧ persist env [a1] a2 = some [a1, a2] := by
  have hblkok : ∀ c : Alloc, validateBlackouts env.blackouts c = .ok () := by
    intro c
    rw [hblk]
    rfl
  have hholok : ∀ c : Alloc, validateHolidays env.holidays c = .ok () := by
    intro c
    rw [hhol]
    rfl
  constructor
  · have hof : overlapFilter [] a1 = [] := rfl
    have hcap : validateCapacity (env.capacity a1.room) (overlapFilter [] a1) a1 = .ok () := by
      rw [hof]
      apply (validateCapacity_ok_iff _ _ _ ?_).mpr
      · intro t
        have hl : loadAt ([] ++ [a1]) t = seatsAt a1 t := by
          simp [loadAt]
        rw [hl]
        have hb := seatsAt_le_seats a1 t
        have hc1 : a1.allocated_seats ≤ env.capacity a1.room := by
          rw [hroom]
          omega
        omega
      · intro a ha
        have : a = a1 := by simpa using ha
        rw [this]
        exact ⟨by omega, hs1⟩
    have hnil : fullCleanErrors env [] a1 = [] := by
      apply (fullCleanWith_nil_iff _ _ _).mpr
      refine ⟨hs1, ?_, by omega⟩
      apply (cleanPipelineWith_ok_iff _ _ _).mpr
      exact ⟨hterm1, hblkok a1, hholok a1, hcap⟩
    unfold persist
    rw [if_pos hnil]
    rfl
  · have hof2 : overlapFilter [a1] a2 = [] := by
      unfold overlapFilter
      rw [List.filter_cons, if_neg, List.filter_nil]
      simp only [Bool.and_eq_true, decide_eq_true_eq, beq_iff_eq]
      rintro ⟨⟨-, -⟩, hx⟩
      omega
    have hcap : validateCapacity (env.capacity a2.room) (overlapFilter [a1] a2) a2 = .ok () := by
      rw [hof2]
      apply (validateCapacity_ok_iff _ _ _ ?_).mpr
      · intro t
        have hl : loadAt ([] ++ [a2]) t = seatsAt a2 t := by
          simp [loadAt]
        rw [hl]
        have hb := seatsAt_le_seats a2 t
        omega
      · intro a ha
        have : a = a2 := by simpa using ha
        rw [this]
        exact ⟨by omega, hs2⟩
    have hnil : fullCleanErrors env [a1] a2 = [] := by
      apply (fullCleanWith_nil_iff _ _ _).mpr
      refine ⟨hs2, ?_, by omega⟩
      apply (cleanPipelineWith_ok_iff _ _ _).mpr
      exact ⟨hterm2, hblkok a2, hholok a2, hcap⟩
    unfold persist
    rw [if_pos hnil]
    rfl

/-- Witness for C2: 60 seats on 08:00-10:00 and 40 seats on 10:00-12:00
against capacity 100 are both persisted. -/
theorem c2_witness :
    persist envPlain [] allocBack1 = some [allocBack1]
      ∧ persist envPlain [allocBack1] allocBack2 = some [allocBack1, allocBack2] :=
  c2_back_to_back_accepted envPlain allocBack1 allocBack2 (hourUS 10) rfl rfl rfl
    (by decide) (by decide) (by decide) (by decide) (by decide) (by rfl) (by rfl) rfl rfl

/-- C5: the validator pipeline runs term window, blackout, holiday and
capacity checks in that fixed order and stops at the first violation; in
particular a candidate dated outside the term span is rejected with a
term-window violation for every overlap set and capacity assignment. -/
theorem c5_pipeline_order_first_violation :
    (∀ (env : Env) (db : List Alloc) (cand : Alloc),
        (cleanPipeline env db cand = .ok ()
          ↔ validateTermWindow env.term cand = .ok ()
            ∧ validateBlackouts env.blackouts cand = .ok ()
            ∧ validateHolidays env.holidays cand = .ok ()
            ∧ validateCapacity (env.capacity cand.room) (overlapFilter db cand) cand = .ok ())
        ∧ (validateTermWindow env.term cand = .error .termWindow →
            cleanPipeline env db cand = .error .termWindow)
        ∧ (validateTermWindow env.term cand = .ok () →
            validateBlackouts env.blackouts cand = .error .blackout →
            cleanPipeline env db cand = .error .blackout)
        ∧ (validateTermWindow env.term cand = .ok () →
            validateBlackouts env.blackouts cand = .ok () →
            validateHolidays env.holidays cand = .error .holiday →
            cleanPipeline env db cand = .error .holiday)
        ∧ (validateTermWindow env.term cand = .ok () →
            validateBlackouts env.blackouts cand = .ok () →
            validateHolidays env.holidays cand = .ok () →
            cleanPipeline env db cand
              = validateCapacity (env.capacity cand.room) (overlapFilter db cand) cand))
      ∧ ∀ (bs : List BlackoutRec) (hs : List HolidayRec) (cap : Nat → Nat) (db : List Alloc),
          cleanPipeline ⟨termSpring, bs, hs, cap⟩ db allocJuly = .error .termWindow := by
  constructor
  · intro env db cand
    exact ⟨cleanPipelineWith_ok_iff env (overlapFilter db cand) cand,
      fun h => cleanPipelineWith_of_term_error env (overlapFilter db cand) cand h,
      fun hA hB => cleanPipelineWith_of_blackout_error env (overlapFilter db cand) cand hA hB,
      fun hA hB hC => cleanPipelineWith_of_holiday_error env (overlapFilter db cand) cand hA hB hC,
      fun hA hB hC => cleanPipelineWith_of_front_ok env (overlapFilter db cand) cand hA hB hC⟩
  · intro bs hs cap db
    exact cleanPipelineWith_of_term_error _ _ _ (by rfl)

/-- Witness for C5: the 2024-07-01 candidate is rejected with a
term-window violation against the empty overlap set. -/
theorem c5_witness :
    cleanPipeline ⟨termSpring, [], [], fun _ => 100⟩ [] allocJuly = .error .termWindow :=
  c5_pipeline_order_first_violation.2 [] [] (fun _ => 100) []

/-- C6: the blackout validator raises a blackout violation exactly when
some blackout window with matching or null room strictly overlaps the
candidate interval; in particular, for any room-global blackout
overlapping the candidate, the pipeline never accepts the candidate
regardless of capacity, and reports the blackout violation whenever the
term-window check passes. -/
theorem c6_blackout_iff :
    (∀ (bs : List BlackoutRec) (cand : Alloc),
        validateBlackouts bs cand = .error .blackout
          ↔ ∃ b ∈ bs, (b.room = some cand.room ∨ b.room = none)
              ∧ b.start_at < cand.end_at ∧ cand.start_at < b.end_at)
      ∧ ∀ (env : Env) (db : List Alloc) (cand : Alloc) (b : BlackoutRec),
          b ∈ env.blackouts → b.room = none →
          b.start_at < cand.end_at → cand.start_at < b.end_at →
          cleanPipeline env db cand ≠ .ok ()
            ∧ (validateTermWindow env.term cand = .ok () →
                cleanPipeline env db cand = .error .blackout) := by
  have hmain : ∀ (bs : List BlackoutRec) (cand : Alloc),
      validateBlackouts bs cand = .error .blackout
        ↔ ∃ b ∈ bs, (b.room = some cand.room ∨ b.room = none)
            ∧ b.start_at < cand.end_at ∧ cand.start_at < b.end_at := by
    intro bs cand
    unfold validateBlackouts
    by_cases h : bs.any (blackoutHits cand) = true
    · rw [if_pos h]
      constructor
      · intro _
        obtain ⟨b, hb, hhit⟩ := List.any_eq_true.mp h
        refine ⟨b, hb, ?_⟩
        unfold blackoutHits at hhit
        simp only [Bool.and_eq_true, Bool.or_eq_true, beq_iff_eq,
          decide_eq_true_eq] at hhit
        exact ⟨hhit.1.1, hhit.1.2, hhit.2⟩
      · intro _
        rfl
    · rw [if_neg h]
      constructor
      · intro hc
        simp at hc
      · rintro ⟨b, hb, hcond⟩
        exfalso
        apply h
        rw [List.any_eq_true]
        refine ⟨b, hb, ?_⟩
        unfold blackoutHits
        simp only [Bool.and_eq_true, Bool.or_eq_true, beq_iff_eq, decide_eq_true_eq]
        exact ⟨⟨hcond.1, hcond.2.1⟩, hcond.2.2⟩
  refine ⟨hmain, ?_⟩
  intro env db cand b hb hglob hov1 hov2
  have hberr : validateBlackouts env.blackouts cand = .error .blackout :=
    (hmain env.blackouts cand).mpr ⟨b, hb, Or.inr hglob, hov1, hov2⟩
  constructor
  · intro hok
    have hall := (cleanPipelineWith_ok_iff env (overlapFilter db cand) cand).mp hok
    rw [hall.2.1] at hberr
    cases hberr
  · intro hterm
    exact cleanPipelineWith_of_blackout_error env (overlapFilter db cand) cand hterm hberr

/-- Witness for C6: a candidate in a different room overlapping the
global blackout is rejected with the blackout violation. -/
theorem c6_witness :
    cleanPipeline envBlackout [] allocOtherRoom = .error .blackout :=
  (c6_blackout_iff.2 envBlackout [] allocOtherRoom blackoutGlobal (by decide) rfl
    (by decide) (by decide)).2 (by rfl)

/-- C7: the save operation is atomic: on any validation failure the
durable allocation table is unchanged (the transaction rolls back with no
partial writes), on success exactly the candidate row is appended, and the
row locks are released on every exit path. -/
theorem c7_save_atomicity (env : Env) (db : List Alloc) (cand : Alloc) :
    ((saveAllocation env db cand).result = .ok ()
        → (saveAllocation env db cand).db = db ++ [cand])
      ∧ (∀ es, (saveAllocation env db cand).result = .error es
        → (saveAllocation env db cand).db = db)
      ∧ (saveAllocation env db cand).locksHeld = [] := by
  unfold saveAllocation txFinish txWrite txFullClean txLockOverlaps txBegin
  cases hfc : fullCleanWith env (overlapFilter db cand) cand with
  | nil =>
    simp only [hfc]
    simp
  | cons x xs =>
    simp only [hfc]
    simp

/-- Witness for C7: a successful save appends the candidate row. -/
theorem c7_witness : (saveAllocation envPlain [] allocBack1).db = [] ++ [allocBack1] :=
  (c7_save_atomicity envPlain [] allocBack1).1 (by rfl)

/-- C8 (amended): a candidate with an inverted or empty interval, or with
a non-positive seat count, is always rejected by full validation, but not
by an upstream interval guard: the constraint pipeline is still evaluated
and its violations may be reported.  For a non-positive seat count the
seats minimum-value field error appears; for start >= end, the interval
check-constraint error appears exactly when the pipeline did not report a
violation keyed to start_at, because a prior start_at error excludes the
field from constraint validation and the check is silently skipped. -/
theorem c8_amended_rejection (env : Env) (db : List Alloc) (cand : Alloc)
    (h : cand.end_at ≤ cand.start_at ∨ cand.allocated_seats = 0) :
    fullCleanErrors env db cand ≠ []
      ∧ (cand.allocated_seats = 0 →
          CleanError.seatsMinValue ∈ fullCleanErrors env db cand)
      ∧ (cand.end_at ≤ cand.start_at →
          (CleanError.intervalConstraint ∈ fullCleanErrors env db cand
            ↔ ¬ ∃ v, cleanPipeline env db cand = .error v
                ∧ violationField v = FieldKey.start_at)) := by
  unfold fullCleanErrors fullCleanWith cleanPipeline
  cases hpipe : cleanPipelineWith env (overlapFilter db cand) cand with
  | ok u =>
    cases u
    refine ⟨?_, ?_, ?_⟩
    · intro hnil
      obtain ⟨hAB, hC⟩ := List.append_eq_nil.mp hnil
      obtain ⟨hA, hB⟩ := List.append_eq_nil.mp hAB
      rcases h with h | h
      · rw [if_neg (by simp [startAtExcluded]), if_neg (by omega)] at hC
        simp at hC
      · rw [if_pos (by omega)] at hA
        simp at hA
    · intro hz
      apply List.mem_append.mpr
      left
      apply List.mem_append.mpr
      left
      rw [if_pos (by omega)]
      simp
    · intro hse
      constructor
      · intro _
        rintro ⟨v, hv, -⟩
        simp at hv
      · intro _
        apply List.mem_append.mpr
        right
        rw [if_neg (by simp [startAtExcluded]), if_neg (by omega)]
        simp
  | error v =>
    refine ⟨?_, ?_, ?_⟩
    · intro hnil
      obtain ⟨hAB, hC⟩ := List.append_eq_nil.mp hnil
      obtain ⟨hA, hB⟩ := List.append_eq_nil.mp hAB
      simp at hB
    · intro hz
      apply List.mem_append.mpr
      left
      apply List.mem_append.mpr
      left
      rw [if_pos (by omega)]
      simp
    · intro hse
      by_cases hk : violationField v = FieldKey.start_at
      · constructor
        · intro hmem
          exfalso
          rcases List.mem_append.mp hmem with hm | hm
          · rcases List.mem_append.mp hm with hm2 | hm2
            · by_cases h1 : cand.allocated_seats < 1
              · rw [if_pos h1] at hm2
                simp at hm2
              · rw [if_neg h1] at hm2
                simp at hm2
            · simp at hm2
          · rw [if_pos (by simp [startAtExcluded, hk])] at hm
            simp at hm
        · intro hne
          exact absurd ⟨v, rfl, hk⟩ hne
      · constructor
        · intro _
          rintro ⟨w, hw, hwk⟩
          injection hw with hvw
          exact hk (hvw ▸ hwk)
        · intro _
          apply List.mem_append.mpr
          right
          rw [if_neg (by simp [startAtExcluded, hk]), if_neg (by omega)]
          simp

/-- Witness for C8 (amended): the empty-interval candidate is rejected. -/
theorem c8_witness : fullCleanErrors envBlackout [] allocEmptyInterval ≠ [] :=
  (c8_amended_rejection envBlackout [] allocEmptyInterval (Or.inl (by decide))).1

/-- Counterexample to C8 as stated: for the empty-interval candidate
placed inside the global blackout, the pipeline is evaluated and its
blackout violation is reported in the collected error list, so it is not
true that no pipeline-constraint violation is ever reported for such a
candidate; moreover the blackout error, keyed to start_at, suppresses the
interval check-constraint error. -/
theorem c8_counterexample_pipeline_reported :
    allocEmptyInterval.end_at ≤ allocEmptyInterval.start_at
      ∧ CleanError.pipeline .blackout ∈ fullCleanErrors envBlackout [] allocEmptyInterval
      ∧ CleanError.intervalConstraint ∉ fullCleanErrors envBlackout [] allocEmptyInterval := by
  exact ⟨by decide, by decide, by decide⟩

/-- C9 (amended): the heatmap partitions the requested range into local
calendar days and produces, for each day, a record with the day date, the
sweep peak of the allocations clamped to that day (allocations crossing a
day boundary are split into per-day sub-intervals), the total seats booked
that day, the count of allocations touching that day, and utilisation
equal to peak divided by the clamped capacity, rounded to four decimal
places. -/
theorem c9_heatmap_day_records (capacity s e : Nat) (allocs : List Alloc) :
    (heatmapRoom capacity s e allocs).length = e + 1 - s
      ∧ ∀ i, i < e + 1 - s →
          (heatmapRoom capacity s e allocs)[i]? = some
            ⟨s + i,
              sweepPeak (dayAllocs s e (s + i) allocs),
              sumSeats ((windowFilter s e allocs).filter (touchesDay s e (s + i))),
              ((windowFilter s e allocs).filter (touchesDay s e (s + i))).length,
              round4 ((sweepPeak (dayAllocs s e (s + i) allocs) : ℚ)
                / (clampedCapacity capacity : ℚ))⟩ :=
  ⟨heatmapRoom_length capacity s e allocs,
    fun i hi => heatmapRoom_get capacity s e allocs i hi⟩

/-- Witness for C9 at a concrete one-day heatmap. -/
theorem c9_witness :
    (heatmapRoom 3 0 0 [allocFullDay])[0]? = some
      ⟨0 + 0,
        sweepPeak (dayAllocs 0 0 (0 + 0) [allocFullDay]),
        sumSeats ((windowFilter 0 0 [allocFullDay]).filter (touchesDay 0 0 (0 + 0))),
        ((windowFilter 0 0 [allocFullDay]).filter (touchesDay 0 0 (0 + 0))).length,
        round4 ((sweepPeak (dayAllocs 0 0 (0 + 0) [allocFullDay]) : ℚ)
          / (clampedCapacity 3 : ℚ))⟩ :=
  (c9_heatmap_day_records 3 0 0 [allocFullDay]).2 0 (by omega)

/-- Counterexample to C9 as stated: with capacity 3 and a single one-seat
full-day allocation the heatmap reports utilisation 0.3333, which is the
rounded value and differs from the exact quotient peak / capacity = 1/3,
so the utilisation field is not equal to peak seats divided by the clamped
capacity. -/
theorem c9_counterexample_utilisation_rounded :
    (heatmapRoom 3 0 0 [allocFullDay])[0]?
        = some ⟨0, 1, 1, 1, (3333 : ℚ)/10000⟩
      ∧ (3333 : ℚ)/10000 ≠ (1 : ℚ)/3 := by
  have hpeak : sweepPeak (dayAllocs 0 0 0 [allocFullDay]) = 1 := by decide
  have htot : sumSeats ((windowFilter 0 0 [allocFullDay]).filter (touchesDay 0 0 0)) = 1 := by
    decide
  have hcnt : ((windowFilter 0 0 [allocFullDay]).filter (touchesDay 0 0 0)).length = 1 := by
    decide
  have hfl : ⌊((1 : ℚ)/3) * 10000⌋ = 3333 := by
    rw [show ((1 : ℚ)/3) * 10000 = 10000/3 by ring, Int.floor_eq_iff]
    constructor
    · norm_num
    · norm_num
  have hutil : round4 ((sweepPeak (dayAllocs 0 0 0 [allocFullDay]) : ℚ)
      / (clampedCapacity 3 : ℚ)) = (3333 : ℚ)/10000 := by
    rw [hpeak]
    have hcast : (((1 : Int) : ℚ)) / ((clampedCapacity 3 : Nat) : ℚ) = (1 : ℚ)/3 := by
      norm_num [clampedCapacity]
    rw [hcast]
    unfold round4 roundHalfEven
    rw [hfl]
    rw [if_pos (by norm_num)]
    norm_num
  constructor
  · have hrec := heatmapRoom_get 3 0 0 [allocFullDay] 0 (by omega)
    rw [hrec]
    rw [show (0 + 0 : Nat) = 0 from rfl] at *
    rw [hutil, hpeak, htot, hcnt]
  · intro hc
    have h1 : ((3333 : ℚ)/10000) * 30000 = 9999 := by norm_num
    have h2 : ((1 : ℚ)/3) * 30000 = 10000 := by norm_num
    rw [hc, h2] at h1
    norm_num at h1
